import Mathlib

/-!
Verification of the technical-document lifecycle manager of the
`obsidian-mcp` repository (class `TechnicalPlansManager`): the frontmatter
codec (`parseFrontmatter` / `generateFrontmatter`), filename generation,
and the three-folder state machine (Inbox / Reviewed / Archive) built on
the vault gateway operations `listFiles` / `getFile` /
`createOrUpdateFile` / `deleteFile`.

Strings are embedded as `List Char`.  The vault is embedded as an
association list from paths to file contents; `getFile` fails (returns
`none`) exactly when the path is absent, `createOrUpdateFile` is an
upsert, and `deleteFile` removes the entry.  Manager operations that
mutate the store return a pair of an `Except` result (the thrown error
message, if any) and the store after the operation, because a thrown
exception does not roll back already-performed remote writes.
-/

namespace ObsidianMCP

abbrev Str := List Char

/-! ## Frontmatter codec (`parseFrontmatter` / `generateFrontmatter`) -/

/-- ECMAScript whitespace (WhiteSpace + LineTerminator code points), the
character class removed by `String.prototype.trim`. -/
def isJSWhitespace (c : Char) : Bool :=
  c.val = 9 || c.val = 10 || c.val = 11 || c.val = 12 || c.val = 13 ||
  c.val = 32 || c.val = 0xa0 || c.val = 0x1680 ||
  (0x2000 ≤ c.val && c.val ≤ 0x200a) || c.val = 0x2028 || c.val = 0x2029 ||
  c.val = 0x202f || c.val = 0x205f || c.val = 0x3000 || c.val = 0xfeff

/-- JavaScript `s.trim()`: strip whitespace from both ends. -/
def trimStr (s : Str) : Str :=
  ((s.dropWhile isJSWhitespace).reverse.dropWhile isJSWhitespace).reverse

/-- The five-character delimiter `"\n---\n"` searched for by the lazy group
of the frontmatter regex `/^---\n([\s\S]*?)\n---\n([\s\S]*)$/`. -/
def fmDelim : Str := ['\n', '-', '-', '-', '\n']

/-- Does the text begin with the closing delimiter `"\n---\n"`? -/
def startsWithDelim (s : Str) : Bool :=
  decide (s.take 5 = fmDelim)

/-- Left-to-right search for the first occurrence of `"\n---\n"`,
returning the text before it and the text after it.  This realizes the
lazy (shortest-match) group `([\s\S]*?)` of the frontmatter regex. -/
def findDelim : Str → Option (Str × Str)
  | [] => none
  | c :: rest =>
    if startsWithDelim (c :: rest) then some ([], rest.drop 4)
    else
      match findDelim rest with
      | some (x, y) => some (c :: x, y)
      | none => none

/-- Strip the mandatory opening `"---\n"` of the frontmatter regex. -/
def dropFMOpen : Str → Option Str
  | '-' :: '-' :: '-' :: '\n' :: rest => some rest
  | _ => none

/-- JavaScript `s.split(sep)` for a single-character separator:
`n` separators yield `n + 1` pieces. -/
def splitOnChar (sep : Char) : Str → List Str
  | [] => [[]]
  | c :: rest =>
    if c = sep then [] :: splitOnChar sep rest
    else
      match splitOnChar sep rest with
      | l :: ls => (c :: l) :: ls
      | [] => [[c]]

/-- Split a line at its first `':'` (JavaScript `line.indexOf(":")`),
returning the parts before and after the colon. -/
def colonSplit : Str → Option (Str × Str)
  | [] => none
  | c :: rest =>
    if c = ':' then some ([], rest)
    else
      match colonSplit rest with
      | some (a, b) => some (c :: a, b)
      | none => none

/-- One metadata line: accepted when the first colon is at a positive
index (`colonIndex > 0`), yielding the trimmed key and trimmed value. -/
def parseLine (line : Str) : Option (Str × Str) :=
  match colonSplit line with
  | some (a, b) => if a = [] then none else some (trimStr a, trimStr b)
  | none => none

/-- JavaScript object assignment `obj[key] = value` on an insertion-ordered
string map: replace in place when the key exists, append otherwise. -/
def insertJS (m : List (Str × Str)) (k v : Str) : List (Str × Str) :=
  match m with
  | [] => [(k, v)]
  | (k₀, v₀) :: rest =>
    if k₀ = k then (k, v) :: rest else (k₀, v₀) :: insertJS rest k v

/-- Fold the frontmatter lines into a metadata map, skipping lines whose
first colon is absent or at index 0. -/
def parseLines : List Str → List (Str × Str) → List (Str × Str)
  | [], acc => acc
  | l :: ls, acc =>
    match parseLine l with
    | some (k, v) => parseLines ls (insertJS acc k v)
    | none => parseLines ls acc

/-- `parseFrontmatter(content)`: match `/^---\n([\s\S]*?)\n---\n([\s\S]*)$/`;
on failure return the empty map and the whole content, on success parse the
first group line by line and return the second group as the body. -/
def parseFrontmatter (content : Str) : List (Str × Str) × Str :=
  match dropFMOpen content with
  | none => ([], content)
  | some rest =>
    match findDelim rest with
    | none => ([], content)
    | some (fstr, body) => (parseLines (splitOnChar '\n' fstr) [], body)

/-- One generated frontmatter line `"key: value\n"` (the `"\n"` is the
join separator that follows the line). -/
def genLine (kv : Str × Str) : Str :=
  kv.1 ++ ':' :: ' ' :: kv.2 ++ ['\n']

/-- All generated metadata lines, each followed by its newline. -/
def genLines : List (Str × Str) → Str
  | [] => []
  | kv :: rest => genLine kv ++ genLines rest

/-- `generateFrontmatter(metadata)`:
`["---", "k: v", …, "---", ""].join("\n")`, i.e. `"---\n"`, one
`"key: value\n"` per defined field in iteration order, then `"---\n"`. -/
def generateFrontmatter (m : List (Str × Str)) : Str :=
  '-' :: '-' :: '-' :: '\n' :: genLines m ++ '-' :: '-' :: '-' :: ['\n']

/-! ## Vault gateway (`ObsidianApiClient` contract)

The remote vault is an association list from paths to file contents. -/

abbrev Vault := List (Str × Str)

/-- `getFile(path)`: the stored content, or `none` (HTTP failure) when the
path is absent. -/
def getFile : Vault → Str → Option Str
  | [], _ => none
  | (q, c) :: rest, p => if q = p then some c else getFile rest p

/-- `createOrUpdateFile(path, content)`: idempotent upsert. -/
def createOrUpdateFile : Vault → Str → Str → Vault
  | [], p, c => [(p, c)]
  | (q, d) :: rest, p, c =>
    if q = p then (p, c) :: rest else (q, d) :: createOrUpdateFile rest p c

/-- `deleteFile(path)`: remove the entry at the path. -/
def deleteFile : Vault → Str → Vault
  | [], _ => []
  | (q, c) :: rest, p => if q = p then rest else (q, c) :: deleteFile rest p

/-- `listFiles()`: every path present in the vault. -/
def listFiles (v : Vault) : List Str := v.map (·.1)

/-- A well-formed store holds at most one file per path. -/
def WF (v : Vault) : Prop := (listFiles v).Nodup

instance (v : Vault) : Decidable (WF v) := by
  unfold WF; infer_instance

/-! ## Manager constants -/

/-- The managed folder `"Technical Plans/Inbox"`. -/
def inboxF : Str := "Technical Plans/Inbox".data

/-- The managed folder `"Technical Plans/Reviewed"`. -/
def reviewedF : Str := "Technical Plans/Reviewed".data

/-- The managed folder `"Technical Plans/Archive"`. -/
def archiveF : Str := "Technical Plans/Archive".data

/-- `Object.values(this.folders)` in declaration order. -/
def folderList : List Str := [inboxF, reviewedF, archiveF]

/-- `folder + "/" + filename`. -/
def planPath (folder fname : Str) : Str := folder ++ '/' :: fname

/-- Target selector of `movePlan`. -/
inductive Folder
  | inbox
  | reviewed
  | archive
deriving DecidableEq

/-- Folder path of a `Folder` selector. -/
def folderPath : Folder → Str
  | .inbox => inboxF
  | .reviewed => reviewedF
  | .archive => archiveF

/-! ## `initializeStructure` -/

/-- Does the text `s` start with the text `pat`? (JavaScript
`s.startsWith(pat)`.) -/
def strStarts : Str → Str → Bool
  | [], _ => true
  | _ :: _, [] => false
  | p :: ps, c :: cs => decide (p = c) && strStarts ps cs

/-- The placeholder content written to force a folder into existence. -/
def placeholderContent : Str :=
  "# This file ensures the directory exists\n".data

/-- `allFiles.files.some((f) => f.startsWith(folder + "/") || f === folder)`. -/
def folderExistsIn (all : List Str) (fol : Str) : Bool :=
  all.any (fun f => strStarts (fol ++ ['/']) f || decide (f = fol))

/-- `initializeStructure()`: snapshot the listing once, then for each
managed folder absent from that snapshot write the placeholder file
`folder + "/.gitkeep"`. -/
def initializeStructure (v : Vault) : Vault :=
  let all := listFiles v
  List.foldl
    (fun vv fol =>
      if folderExistsIn all fol then vv
      else createOrUpdateFile vv (fol ++ "/.gitkeep".data) placeholderContent)
    v folderList

/-! ## `createTechnicalPlan` -/

/-- `Partial<TechnicalPlanMetadata>`: each schema field optionally present. -/
structure PartialMeta where
  created : Option Str := none
  source : Option Str := none
  type : Option Str := none
  project : Option Str := none
  priority : Option Str := none
  review_date : Option Str := none
  next_action : Option Str := none

/-- Is the character in the class `[a-zA-Z0-9]`? -/
def isAlnumAscii (c : Char) : Bool :=
  ('a' ≤ c && c ≤ 'z') || ('A' ≤ c && c ≤ 'Z') || ('0' ≤ c && c ≤ '9')

/-- `s.replace(/[^a-zA-Z0-9]/g, "_")`. -/
def sanitize (s : Str) : Str :=
  s.map (fun c => if isAlnumAscii c then c else '_')

/-- `generateFilename`: `` `${date}_${cleanProject}_${cleanType}.md` ``. -/
def generateFilename (today project ty : Str) : Str :=
  today ++ '_' :: sanitize project ++ '_' :: sanitize ty ++ ".md".data

/-- The merged full metadata of `createTechnicalPlan`: literal defaults
(`created: today`, `source || "Other LLM"`, `type || "Design"`,
`project || "Unnamed Project"`, `priority || "Medium"`) then the spread
`...metadata`, which re-overrides every field the caller provided, so each
field reduces to "caller value when present, else default"; the optional
fields appear only when provided, after the five required ones. -/
def mergeMetadata (today : Str) (m : PartialMeta) : List (Str × Str) :=
  [("created".data, m.created.getD today),
   ("source".data, m.source.getD "Other LLM".data),
   ("type".data, m.type.getD "Design".data),
   ("project".data, m.project.getD "Unnamed Project".data),
   ("priority".data, m.priority.getD "Medium".data)] ++
  (match m.review_date with
   | some w => [("review_date".data, w)]
   | none => []) ++
  (match m.next_action with
   | some w => [("next_action".data, w)]
   | none => [])

/-- `createTechnicalPlan(content, metadata)`: merge the metadata, compute
the filename from the merged project and type, write
`generateFrontmatter(full) + content` to `Inbox/filename`, and return the
written path. -/
def createTechnicalPlan (today : Str) (content : Str) (m : PartialMeta)
    (v : Vault) : Str × Vault :=
  let full := mergeMetadata today m
  let filename := generateFilename today
    (m.project.getD "Unnamed Project".data) (m.type.getD "Design".data)
  let filepath := planPath inboxF filename
  (filepath, createOrUpdateFile v filepath (generateFrontmatter full ++ content))

/-! ## `movePlan`, `markReviewed`, `archivePlan` -/

/-- Search the folders in order for the first one holding the filename,
returning the source path and its content. -/
def findInFolders (v : Vault) (fname : Str) : List Str → Option (Str × Str)
  | [] => none
  | fol :: fs =>
    match getFile v (planPath fol fname) with
    | some c => some (planPath fol fname, c)
    | none => findInFolders v fname fs

/-- `movePlan(filename, targetFolder)`: find the file in any folder
(Inbox, Reviewed, then Archive), copy it to the target folder, delete the
source, or throw a wrapped not-found error. -/
def movePlan (v : Vault) (fname : Str) (target : Folder) :
    Except Str Unit × Vault :=
  match findInFolders v fname folderList with
  | none =>
    (.error ("Failed to move plan: Error: File ".data ++ fname ++
      " not found in Technical Plans".data), v)
  | some (src, c) =>
    (.ok (), deleteFile (createOrUpdateFile v (planPath (folderPath target) fname) c) src)

/-- `markReviewed(filename)`: read `Inbox/filename`, set
`metadata.review_date = today`, re-encode, write to `Reviewed/filename`,
then delete the Inbox copy.  A failing read throws a wrapped error before
any write. -/
def markReviewed (today : Str) (v : Vault) (fname : Str) :
    Except Str Unit × Vault :=
  match getFile v (planPath inboxF fname) with
  | none =>
    (.error ("Failed to mark plan as reviewed: Error: Failed to get file: Not Found".data), v)
  | some content =>
    let pr := parseFrontmatter content
    let md := insertJS pr.1 "review_date".data today
    let updated := generateFrontmatter md ++ pr.2
    (.ok (), deleteFile (createOrUpdateFile v (planPath reviewedF fname) updated)
      (planPath inboxF fname))

/-- The message of the error thrown when `archivePlan` finds no copy. -/
def notFoundMsg (fname : Str) : Str :=
  "File ".data ++ fname ++ " not found in Technical Plans".data

/-- Injectable gateway write failures (`createOrUpdateFile` / `deleteFile`
rejecting), used to check how `archivePlan` treats them. -/
structure Faults where
  createFail : Str → Bool
  deleteFail : Str → Bool

/-- The fault-free gateway. -/
def noFaults : Faults := ⟨fun _ => false, fun _ => false⟩

/-- The folder loop of `archivePlan(filename)` over the non-archive
folders.  The whole body — read, archive write, source delete — sits in
one `try { … } catch { /* File not in this folder, continue */ }`, so ANY
failure inside it falls through to the next folder; a write that already
happened before a later failure persists. -/
def archivePlanGo (flt : Faults) (fname : Str) :
    List Str → Vault → Except Str Unit × Vault
  | [], v => (.error (notFoundMsg fname), v)
  | fol :: fs, v =>
    match getFile v (planPath fol fname) with
    | none => archivePlanGo flt fname fs v
    | some c =>
      if flt.createFail (planPath archiveF fname) then
        archivePlanGo flt fname fs v
      else
        let v₁ := createOrUpdateFile v (planPath archiveF fname) c
        if flt.deleteFail (planPath fol fname) then
          archivePlanGo flt fname fs v₁
        else (.ok (), deleteFile v₁ (planPath fol fname))

/-- `archivePlan(filename)` under injected gateway faults. -/
def archivePlanF (flt : Faults) (v : Vault) (fname : Str) :
    Except Str Unit × Vault :=
  archivePlanGo flt fname [inboxF, reviewedF] v

/-- `archivePlan(filename)` with the fault-free gateway: search Inbox then
Reviewed, copy the first found content to `Archive/filename`, delete the
source, or throw the not-found error. -/
def archivePlan (v : Vault) (fname : Str) : Except Str Unit × Vault :=
  archivePlanF noFaults v fname

/-! ## Listing and metadata lookup

The code lists a folder by calling the gateway's generic file read on the
folder path and decoding the JSON `{"files": [...]}` payload.  The model
collapses that JSON round trip: `listDirNames` yields directly the names
of the vault entries immediately under the folder, and a folder with no
contents yields the empty listing (the code reaches the same observable
result by silently catching the failed read). -/

/-- Strip a leading `pat` from `s`, or fail. -/
def dropLead : Str → Str → Option Str
  | [], s => some s
  | _ :: _, [] => none
  | p :: ps, c :: cs => if p = c then dropLead ps cs else none

/-- Names of the files immediately under `folder` (the decoded
`dirContent.files`). -/
def listDirNames (v : Vault) (folder : Str) : List Str :=
  (listFiles v).filterMap (fun q =>
    match dropLead (folder ++ ['/']) q with
    | some name => if '/' ∈ name then none else some name
    | none => none)

/-- JavaScript `name.endsWith(".md")`. -/
def endsWithMd (s : Str) : Bool :=
  match s.reverse with
  | 'd' :: 'm' :: '.' :: _ => true
  | _ => false

/-- A listing entry: the path, and the decoded metadata when the file
could be read. -/
structure FileInfo where
  path : Str
  metadata : Option (List (Str × Str))
deriving DecidableEq

/-- One listing entry: read the file and decode its frontmatter; an
unreadable entry is still included without metadata. -/
def mkInfo (v : Vault) (folder name : Str) : FileInfo :=
  match getFile v (planPath folder name) with
  | some c => ⟨planPath folder name, some (parseFrontmatter c).1⟩
  | none => ⟨planPath folder name, none⟩

/-- The plans of one folder: filter the listing to `*.md`, then read and
decode each file. -/
def listPlansInFolder (v : Vault) (folder : Str) : List FileInfo :=
  ((listDirNames v folder).filter endsWithMd).map (mkInfo v folder)

/-- `listTechnicalPlans(folder?)`: the requested folder, or all three in
order when unspecified. -/
def listTechnicalPlans (v : Vault) (fo : Option Folder) : List FileInfo :=
  match fo with
  | some f => listPlansInFolder v (folderPath f)
  | none =>
    listPlansInFolder v inboxF ++ listPlansInFolder v reviewedF ++
      listPlansInFolder v archiveF

/-- Lookup in the decoded metadata map (JavaScript property access). -/
def alookup : List (Str × Str) → Str → Option Str
  | [], _ => none
  | (k, w) :: rest, q => if k = q then some w else alookup rest q

/-- `getPlanMetadata(filename)`: first successful read-and-decode over
Inbox, Reviewed, Archive, else `null`. -/
def getPlanMetadata (v : Vault) (fname : Str) : Option (List (Str × Str)) :=
  match getFile v (planPath inboxF fname) with
  | some c => some (parseFrontmatter c).1
  | none =>
    match getFile v (planPath reviewedF fname) with
    | some c => some (parseFrontmatter c).1
    | none =>
      match getFile v (planPath archiveF fname) with
      | some c => some (parseFrontmatter c).1
      | none => none

/-! ## Dates (`archiveOldReviewed`)

Instants are integers in milliseconds since the Unix epoch.
`new Date("YYYY-MM-DD")` yields UTC midnight of a valid civil date and an
invalid time value (`NaN`) otherwise; the model returns `none` for the
invalid case, and every comparison against `none` is false, as every
comparison against `NaN` is.  `cutoffDate.setDate(getDate() - daysOld)`
shifts the current instant back by exactly `daysOld` civil days, i.e.
`daysOld * 86400000` ms in this timezone-free model. -/

/-- Milliseconds per day. -/
def msPerDay : Int := 86400000

/-- Decimal digit value. -/
def digitVal (c : Char) : Option Nat :=
  if '0' ≤ c && c ≤ '9' then some (c.toNat - 48) else none

/-- Gregorian leap year. -/
def isLeap (y : Int) : Bool :=
  (y % 4 = 0 && y % 100 ≠ 0) || y % 400 = 0

/-- Length of a month. -/
def monthLen (y m : Int) : Int :=
  if m = 2 then (if isLeap y then 29 else 28)
  else if m = 4 || m = 6 || m = 9 || m = 11 then 30
  else 31

/-- Days from the epoch 1970-01-01 to the civil date `y-m-d`
(Hinnant's civil-from-days inverse). -/
def daysFromCivil (y m d : Int) : Int :=
  let y₁ := if m ≤ 2 then y - 1 else y
  let era := (if 0 ≤ y₁ then y₁ else y₁ - 399) / 400
  let yoe := y₁ - era * 400
  let mp := if 2 < m then m - 3 else m + 9
  let doy := (153 * mp + 2) / 5 + d - 1
  let doe := yoe * 365 + yoe / 4 - yoe / 100 + doy
  era * 146097 + doe - 719468

/-- `new Date(s).getTime()` for a date-only string: UTC midnight of a
valid `"YYYY-MM-DD"`, `none` (`NaN`) otherwise. -/
def parseISODate (s : Str) : Option Int :=
  match s with
  | [y₁, y₂, y₃, y₄, '-', m₁, m₂, '-', d₁, d₂] =>
    match digitVal y₁, digitVal y₂, digitVal y₃, digitVal y₄,
        digitVal m₁, digitVal m₂, digitVal d₁, digitVal d₂ with
    | some a, some b, some c, some d, some e, some f, some g, some h =>
      let y : Int := ((a * 10 + b) * 10 + c) * 10 + d
      let m : Int := e * 10 + f
      let dd : Int := g * 10 + h
      if 1 ≤ m ∧ m ≤ 12 ∧ 1 ≤ dd ∧ dd ≤ monthLen y m then
        some (daysFromCivil y m dd * msPerDay)
      else none
    | _, _, _, _, _, _, _, _ => none
  | _ => none

/-- `plan.path.split("/").pop()!`. -/
def lastComp (s : Str) : Str :=
  ((splitOnChar '/' s).getLast?).getD []

/-- `reviewDate < cutoffDate` guarded by presence and parseability of
`plan.metadata?.review_date`; false whenever either guard fails. -/
def shouldArchive (cutoff : Int) (p : FileInfo) : Bool :=
  match p.metadata with
  | some md =>
    match alookup md "review_date".data with
    | some rd =>
      match parseISODate rd with
      | some t => decide (t < cutoff)
      | none => false
    | none => false
  | none => false

/-- The counting loop of `archiveOldReviewed`: archive each plan whose
review date lies strictly before the cutoff; a failing `archivePlan`
rejects the whole operation. -/
def archiveOldGo (cutoff : Int) :
    List FileInfo → Nat → Vault → Except Str Nat × Vault
  | [], n, v => (.ok n, v)
  | p :: ps, n, v =>
    if shouldArchive cutoff p then
      match archivePlan v (lastComp p.path) with
      | (.ok _, v₁) => archiveOldGo cutoff ps (n + 1) v₁
      | (.error e, v₁) => (.error e, v₁)
    else archiveOldGo cutoff ps n v

/-- `archiveOldReviewed(daysOld)`: list the Reviewed plans once, compute
`cutoff = now − daysOld` days, archive every plan strictly older, and
return how many were archived. -/
def archiveOldReviewed (now : Int) (daysOld : Int) (v : Vault) :
    Except Str Nat × Vault :=
  archiveOldGo (now - daysOld * msPerDay)
    (listTechnicalPlans v (some .reviewed)) 0 v

/-! ## Helper definitions for the verification -/

/-- Flat string entry: nonempty colon-free newline-free key, colon-free
newline-free value, both free of leading and trailing whitespace. -/
def FlatKV (k w : Str) : Prop :=
  k ≠ [] ∧ ':' ∉ k ∧ '\n' ∉ k ∧ ':' ∉ w ∧ '\n' ∉ w ∧
    trimStr k = k ∧ trimStr w = w

instance (k w : Str) : Decidable (FlatKV k w) := by
  unfold FlatKV; infer_instance

/-- One metadata line without its trailing newline. -/
def lineOf (kv : Str × Str) : Str :=
  kv.1 ++ ':' :: ' ' :: kv.2

/-- The metadata lines joined by single newlines (the first group captured
by the frontmatter regex on generated text). -/
def linesJoin : List (Str × Str) → Str
  | [] => []
  | [kv] => lineOf kv
  | kv :: kv₂ :: rest => lineOf kv ++ '\n' :: linesJoin (kv₂ :: rest)

/-- The keys of a metadata map. -/
def keysOf (m : List (Str × Str)) : List Str := m.map (·.1)

/-- Does `"\n---\n"` occur anywhere in the text? -/
def hasDelimIn : Str → Bool
  | [] => false
  | c :: rest => startsWithDelim (c :: rest) || hasDelimIn rest

/-! ## Store lemmas -/

theorem listFiles_nil : listFiles [] = [] := rfl

theorem listFiles_cons (r d : Str) (rest : Vault) :
    listFiles ((r, d) :: rest) = r :: listFiles rest := rfl

theorem WF_cons (r d : Str) (rest : Vault) :
    WF ((r, d) :: rest) ↔ r ∉ listFiles rest ∧ WF rest := by
  simp [WF, listFiles_cons]

theorem getFile_createOrUpdate (p c q : Str) : ∀ v : Vault,
    getFile (createOrUpdateFile v p c) q = if q = p then some c else getFile v q := by
  intro v
  induction v with
  | nil =>
    simp only [createOrUpdateFile, getFile]
    by_cases h : p = q
    · subst h; simp
    · rw [if_neg h, if_neg (fun hh => h hh.symm)]
  | cons e rest ih =>
    obtain ⟨r, d⟩ := e
    simp only [createOrUpdateFile]
    by_cases hr : r = p
    · subst hr
      simp only [if_pos rfl, getFile]
      by_cases h : r = q
      · subst h; simp
      · rw [if_neg h, if_neg (fun hh => h hh.symm), if_neg h]
    · simp only [if_neg hr, getFile]
      by_cases h : r = q
      · subst h
        rw [if_pos rfl, if_pos rfl, if_neg (fun hh : r = p => hr hh)]
      · rw [if_neg h, if_neg h, ih]

theorem getFile_delete_ne (p q : Str) (h : q ≠ p) : ∀ v : Vault,
    getFile (deleteFile v p) q = getFile v q := by
  intro v
  induction v with
  | nil => rfl
  | cons e rest ih =>
    obtain ⟨r, d⟩ := e
    simp only [deleteFile, getFile]
    by_cases hr : r = p
    · subst hr
      rw [if_pos rfl, if_neg (fun hh : r = q => h hh.symm)]
    · rw [if_neg hr]
      simp only [getFile]
      by_cases hq : r = q
      · rw [if_pos hq, if_pos hq]
      · rw [if_neg hq, if_neg hq, ih]

theorem getFile_eq_none_of_not_mem (p : Str) : ∀ v : Vault,
    p ∉ listFiles v → getFile v p = none := by
  intro v
  induction v with
  | nil => intro _; rfl
  | cons e rest ih =>
    obtain ⟨r, d⟩ := e
    intro h
    rw [listFiles_cons, List.mem_cons] at h
    push_neg at h
    simp only [getFile]
    rw [if_neg (fun hh : r = p => h.1 hh.symm)]
    exact ih h.2

theorem mem_of_getFile_isSome (v : Vault) (p : Str)
    (h : (getFile v p).isSome) : p ∈ listFiles v := by
  by_contra hmem
  rw [getFile_eq_none_of_not_mem p v hmem] at h
  simp at h

theorem getFile_isSome_of_mem (p : Str) : ∀ v : Vault,
    p ∈ listFiles v → (getFile v p).isSome := by
  intro v
  induction v with
  | nil => intro h; simp [listFiles_nil] at h
  | cons e rest ih =>
    obtain ⟨r, d⟩ := e
    intro h
    simp only [getFile]
    by_cases hr : r = p
    · simp [hr]
    · rw [if_neg hr]
      rw [listFiles_cons, List.mem_cons] at h
      rcases h with h | h
      · exact absurd h.symm hr
      · exact ih h

theorem getFile_delete_self (p : Str) : ∀ v : Vault, WF v →
    getFile (deleteFile v p) p = none := by
  intro v
  induction v with
  | nil => intro _; rfl
  | cons e rest ih =>
    obtain ⟨r, d⟩ := e
    intro h
    rw [WF_cons] at h
    simp only [deleteFile]
    by_cases hr : r = p
    · subst hr
      rw [if_pos rfl]
      exact getFile_eq_none_of_not_mem _ _ h.1
    · rw [if_neg hr]
      simp only [getFile]
      rw [if_neg hr]
      exact ih h.2

theorem mem_listFiles_createOrUpdate (p c q : Str) : ∀ v : Vault,
    q ∈ listFiles (createOrUpdateFile v p c) ↔ q ∈ listFiles v ∨ q = p := by
  intro v
  induction v with
  | nil => simp [createOrUpdateFile, listFiles_cons, listFiles_nil]
  | cons e rest ih =>
    obtain ⟨r, d⟩ := e
    simp only [createOrUpdateFile]
    by_cases hr : r = p
    · subst hr
      rw [if_pos rfl]
      simp only [listFiles_cons, List.mem_cons]
      tauto
    · rw [if_neg hr]
      simp only [listFiles_cons, List.mem_cons, ih]
      tauto

theorem WF_createOrUpdate (p c : Str) : ∀ v : Vault, WF v →
    WF (createOrUpdateFile v p c) := by
  intro v
  induction v with
  | nil => intro _; simp [WF, createOrUpdateFile, listFiles_cons, listFiles_nil]
  | cons e rest ih =>
    obtain ⟨r, d⟩ := e
    intro h
    rw [WF_cons] at h
    simp only [createOrUpdateFile]
    by_cases hr : r = p
    · subst hr
      rw [if_pos rfl, WF_cons]
      exact h
    · rw [if_neg hr, WF_cons]
      refine ⟨?_, ih h.2⟩
      intro hq
      rcases (mem_listFiles_createOrUpdate p c r rest).mp hq with hh | hh
      · exact h.1 hh
      · exact hr hh

theorem listFiles_delete_sublist (p : Str) : ∀ v : Vault,
    List.Sublist (listFiles (deleteFile v p)) (listFiles v) := by
  intro v
  induction v with
  | nil => simp [deleteFile, listFiles_nil]
  | cons e rest ih =>
    obtain ⟨r, d⟩ := e
    simp only [deleteFile]
    by_cases hr : r = p
    · rw [if_pos hr, listFiles_cons]
      exact List.Sublist.cons r (List.Sublist.refl _)
    · rw [if_neg hr, listFiles_cons, listFiles_cons]
      exact ih.cons₂ r

theorem WF_delete (v : Vault) (p : Str) (h : WF v) : WF (deleteFile v p) := by
  exact (listFiles_delete_sublist p v).nodup h

/-- Presence of a path is preserved by any upsert. -/
theorem isSome_createOrUpdate (v : Vault) (p c q : Str)
    (h : (getFile v q).isSome) :
    (getFile (createOrUpdateFile v p c) q).isSome := by
  rw [getFile_createOrUpdate]
  by_cases hq : q = p <;> simp [hq, h]

/-! ## Path distinctness -/

theorem append_ne_append (a b : Str) (n : Nat) (ha : n ≤ a.length)
    (hb : n ≤ b.length) (h : a.take n ≠ b.take n) :
    ∀ x y : Str, a ++ x ≠ b ++ y := by
  intro x y heq
  apply h
  have h₁ := congrArg (List.take n) heq
  rwa [List.take_append_of_le_length ha, List.take_append_of_le_length hb] at h₁

theorem planPath_eq (fol f : Str) : planPath fol f = (fol ++ ['/']) ++ f := by
  simp [planPath]

theorem inbox_ne_reviewed (f g : Str) :
    planPath inboxF f ≠ planPath reviewedF g := by
  rw [planPath_eq, planPath_eq]
  exact append_ne_append _ _ 17 (by decide) (by decide) (by decide) f g

theorem inbox_ne_archive (f g : Str) :
    planPath inboxF f ≠ planPath archiveF g := by
  rw [planPath_eq, planPath_eq]
  exact append_ne_append _ _ 17 (by decide) (by decide) (by decide) f g

theorem reviewed_ne_archive (f g : Str) :
    planPath reviewedF f ≠ planPath archiveF g := by
  rw [planPath_eq, planPath_eq]
  exact append_ne_append _ _ 17 (by decide) (by decide) (by decide) f g

theorem planPath_inj (fol f g : Str) (h : planPath fol f = planPath fol g) :
    f = g := by
  rw [planPath_eq, planPath_eq] at h
  exact List.append_cancel_left h

/-! ## Codec lemmas -/

theorem length_dropWhile_le (p : Char → Bool) : ∀ l : Str,
    (l.dropWhile p).length ≤ l.length := by
  intro l
  induction l with
  | nil => simp
  | cons c rest ih =>
    rw [List.dropWhile_cons]
    by_cases h : p c
    · simp only [h, if_pos]
      exact Nat.le_trans ih (Nat.le_succ _)
    · simp [h]

theorem dropWhile_eq_self_of_length (p : Char → Bool) (l : Str)
    (h : (l.dropWhile p).length = l.length) : l.dropWhile p = l := by
  cases l with
  | nil => rfl
  | cons c rest =>
    rw [List.dropWhile_cons]
    by_cases hp : p c
    · exfalso
      rw [List.dropWhile_cons, if_pos hp] at h
      have := length_dropWhile_le p rest
      simp [List.length_cons] at h
      omega
    · simp [hp]

theorem trim_fix_left (w : Str) (h : trimStr w = w) :
    w.dropWhile isJSWhitespace = w := by
  have h₁ : (trimStr w).length ≤ (w.dropWhile isJSWhitespace).length := by
    unfold trimStr
    rw [List.length_reverse]
    calc ((w.dropWhile isJSWhitespace).reverse.dropWhile isJSWhitespace).length
        ≤ (w.dropWhile isJSWhitespace).reverse.length :=
          length_dropWhile_le _ _
      _ = (w.dropWhile isJSWhitespace).length := List.length_reverse _
  have h₂ := length_dropWhile_le isJSWhitespace w
  rw [h] at h₁
  exact dropWhile_eq_self_of_length _ _ (Nat.le_antisymm h₂ h₁)

theorem trim_fix_right (w : Str) (h : trimStr w = w) :
    w.reverse.dropWhile isJSWhitespace = w.reverse := by
  have hl := trim_fix_left w h
  unfold trimStr at h
  rw [hl] at h
  have := congrArg List.reverse h
  rwa [List.reverse_reverse] at this

theorem trim_space_cons (w : Str) (h : trimStr w = w) :
    trimStr (' ' :: w) = w := by
  unfold trimStr
  rw [List.dropWhile_cons]
  have hws : isJSWhitespace ' ' = true := by decide
  rw [if_pos hws, trim_fix_left w h, trim_fix_right w h, List.reverse_reverse]

theorem colonSplit_append (k t : Str) (hk : ':' ∉ k) :
    colonSplit (k ++ ':' :: t) = some (k, t) := by
  induction k with
  | nil => simp [colonSplit]
  | cons c rest ih =>
    rw [List.mem_cons, not_or] at hk
    simp only [List.cons_append, colonSplit, List.append_eq, ih hk.2]
    rw [if_neg (fun hh : c = ':' => hk.1 hh.symm)]

theorem parseLine_flat (k w : Str) (h : FlatKV k w) :
    parseLine (k ++ ':' :: ' ' :: w) = some (k, w) := by
  obtain ⟨hne, hck, -, -, -, htk, htw⟩ := h
  unfold parseLine
  rw [colonSplit_append k (' ' :: w) hck]
  show (if k = [] then none else some (trimStr k, trimStr (' ' :: w))) = some (k, w)
  rw [if_neg hne, htk, trim_space_cons w htw]

theorem startsWithDelim_not_nl (c : Char) (rest : Str) (h : c ≠ '\n') :
    startsWithDelim (c :: rest) = false := by
  simp only [startsWithDelim, fmDelim, List.take_succ_cons,
    decide_eq_false_iff_not]
  intro hh
  injection hh with h₁ h₂
  exact h h₁

theorem startsWithDelim_line (k : Str) (hne : k ≠ []) (hc : ':' ∉ k)
    (hn : '\n' ∉ k) (w : Str) :
    startsWithDelim ('\n' :: (k ++ ':' :: ' ' :: w)) = false := by
  match k, hne with
  | [a], _ =>
    simp [startsWithDelim, fmDelim]
  | [a, b], _ =>
    simp [startsWithDelim, fmDelim]
  | [a, b, c], _ =>
    simp [startsWithDelim, fmDelim]
  | a :: b :: c :: d :: k₄, _ =>
    have hd : d ≠ '\n' := fun hh => hn (by simp [hh])
    simp only [startsWithDelim, fmDelim, List.cons_append, List.take_cons]
    simp [hd]

theorem findDelim_cons (c : Char) (rest : Str)
    (h : startsWithDelim (c :: rest) = false) :
    findDelim (c :: rest) =
      (findDelim rest).map (fun p => (c :: p.1, p.2)) := by
  rw [findDelim, if_neg (by simp [h])]
  cases hf : findDelim rest with
  | none => rfl
  | some p => obtain ⟨x, y⟩ := p; rfl

theorem findDelim_append_free (s : Str) : ∀ l : Str, '\n' ∉ l →
    findDelim (l ++ s) = (findDelim s).map (fun p => (l ++ p.1, p.2)) := by
  intro l
  induction l with
  | nil =>
    intro _
    cases hf : findDelim s with
    | none => simp [hf]
    | some p => obtain ⟨x, y⟩ := p; simp [hf]
  | cons c rest ih =>
    intro h
    rw [List.mem_cons, not_or] at h
    rw [List.cons_append,
      findDelim_cons c (rest ++ s) (startsWithDelim_not_nl c _ (fun hh => h.1 hh.symm)),
      ih h.2]
    cases hf : findDelim s with
    | none => rfl
    | some p => obtain ⟨x, y⟩ := p; rfl

theorem findDelim_close (body : Str) :
    findDelim ('\n' :: '-' :: '-' :: '-' :: '\n' :: body) = some ([], body) := by
  rw [findDelim, if_pos (by simp [startsWithDelim, fmDelim])]
  rfl

theorem lineOf_no_nl (kv : Str × Str) (h : FlatKV kv.1 kv.2) :
    '\n' ∉ lineOf kv := by
  obtain ⟨-, -, hk, -, hw, -, -⟩ := h
  unfold lineOf
  intro hmem
  rcases List.mem_append.mp hmem with hh | hh
  · exact hk hh
  · rcases List.mem_cons.mp hh with hh₁ | hh₁
    · exact absurd hh₁.symm (by decide)
    · rcases List.mem_cons.mp hh₁ with hh₂ | hh₂
      · exact absurd hh₂.symm (by decide)
      · exact hw hh₂

theorem findDelim_line (kv : Str × Str) (h : FlatKV kv.1 kv.2) (s : Str) :
    findDelim (lineOf kv ++ s) =
      (findDelim s).map (fun p => (lineOf kv ++ p.1, p.2)) :=
  findDelim_append_free s (lineOf kv) (lineOf_no_nl kv h)

theorem findDelim_gen : ∀ (m : List (Str × Str)), m ≠ [] →
    (∀ kv ∈ m, FlatKV kv.1 kv.2) → ∀ body : Str,
    findDelim (genLines m ++ '-' :: '-' :: '-' :: '\n' :: body) =
      some (linesJoin m, body) := by
  intro m
  induction m with
  | nil => intro h; exact absurd rfl h
  | cons kv m₁ ih =>
    intro _ hflat body
    have hkv := hflat kv (List.mem_cons_self kv m₁)
    cases m₁ with
    | nil =>
      have hshape : genLines [kv] ++ '-' :: '-' :: '-' :: '\n' :: body =
          lineOf kv ++ '\n' :: '-' :: '-' :: '-' :: '\n' :: body := by
        simp [genLines, genLine, lineOf]
      rw [hshape, findDelim_line kv hkv, findDelim_close]
      simp [linesJoin]
    | cons kv₂ m₂ =>
      have hkv₂ := hflat kv₂ (List.mem_cons_of_mem kv (List.mem_cons_self kv₂ m₂))
      have hih := ih (by simp) (fun e he => hflat e (List.mem_cons_of_mem kv he)) body
      have hshape : genLines (kv :: kv₂ :: m₂) ++ '-' :: '-' :: '-' :: '\n' :: body =
          lineOf kv ++ '\n' :: (genLines (kv₂ :: m₂) ++ '-' :: '-' :: '-' :: '\n' :: body) := by
        simp [genLines, genLine, lineOf]
      have hs : genLines (kv₂ :: m₂) ++ '-' :: '-' :: '-' :: '\n' :: body =
          kv₂.1 ++ ':' :: ' ' :: (kv₂.2 ++ '\n' :: (genLines m₂ ++ '-' :: '-' :: '-' :: '\n' :: body)) := by
        simp [genLines, genLine]
      have hstart : startsWithDelim
          ('\n' :: (genLines (kv₂ :: m₂) ++ '-' :: '-' :: '-' :: '\n' :: body)) = false := by
        rw [hs]
        exact startsWithDelim_line kv₂.1 hkv₂.1 hkv₂.2.1 hkv₂.2.2.1 _
      rw [hshape, findDelim_line kv hkv, findDelim_cons '\n' _ hstart, hih]
      simp [linesJoin]

theorem splitOnChar_free (sep : Char) : ∀ l : Str, sep ∉ l →
    splitOnChar sep l = [l] := by
  intro l
  induction l with
  | nil => intro _; rfl
  | cons c rest ih =>
    intro h
    rw [List.mem_cons, not_or] at h
    rw [splitOnChar, if_neg (fun hh : c = sep => h.1 hh.symm), ih h.2]

theorem splitOnChar_append (sep : Char) (r : Str) : ∀ l : Str, sep ∉ l →
    splitOnChar sep (l ++ sep :: r) = l :: splitOnChar sep r := by
  intro l
  induction l with
  | nil =>
    intro _
    rw [List.nil_append, splitOnChar, if_pos rfl]
  | cons c rest ih =>
    intro h
    rw [List.mem_cons, not_or] at h
    rw [List.cons_append, splitOnChar, if_neg (fun hh : c = sep => h.1 hh.symm),
      ih h.2]

theorem splitOnChar_linesJoin : ∀ (m : List (Str × Str)), m ≠ [] →
    (∀ kv ∈ m, FlatKV kv.1 kv.2) →
    splitOnChar '\n' (linesJoin m) = m.map lineOf := by
  intro m
  induction m with
  | nil => intro h; exact absurd rfl h
  | cons kv m₁ ih =>
    intro _ hflat
    have hkv := hflat kv (List.mem_cons_self kv m₁)
    cases m₁ with
    | nil =>
      rw [show linesJoin [kv] = lineOf kv from rfl,
        splitOnChar_free '\n' (lineOf kv) (lineOf_no_nl kv hkv)]
      rfl
    | cons kv₂ m₂ =>
      rw [show linesJoin (kv :: kv₂ :: m₂) = lineOf kv ++ '\n' :: linesJoin (kv₂ :: m₂) from rfl,
        splitOnChar_append '\n' _ (lineOf kv) (lineOf_no_nl kv hkv),
        ih (by simp) (fun e he => hflat e (List.mem_cons_of_mem kv he))]
      rfl

theorem insertJS_not_mem (k w : Str) : ∀ m : List (Str × Str),
    k ∉ keysOf m → insertJS m k w = m ++ [(k, w)] := by
  intro m
  induction m with
  | nil => intro _; rfl
  | cons kv rest ih =>
    obtain ⟨k₀, w₀⟩ := kv
    intro h
    simp only [keysOf, List.map_cons, List.mem_cons] at h
    push_neg at h
    rw [insertJS, if_neg (fun hh : k₀ = k => h.1 hh.symm)]
    rw [ih (by simpa [keysOf] using h.2)]
    rfl

theorem parseLines_append : ∀ (m acc : List (Str × Str)),
    (∀ kv ∈ m, FlatKV kv.1 kv.2) → (keysOf m).Nodup →
    (∀ kv ∈ m, kv.1 ∉ keysOf acc) →
    parseLines (m.map lineOf) acc = acc ++ m := by
  intro m
  induction m with
  | nil => intro acc _ _ _; simp [parseLines]
  | cons kv m₁ ih =>
    intro acc hflat hnd hdisj
    obtain ⟨k, w⟩ := kv
    have hkv := hflat (k, w) (List.mem_cons_self _ m₁)
    simp only [List.map_cons, parseLines, lineOf, parseLine_flat k w hkv]
    rw [insertJS_not_mem k w acc (hdisj (k, w) (List.mem_cons_self _ m₁))]
    simp only [keysOf, List.map_cons, List.nodup_cons] at hnd
    rw [ih (acc ++ [(k, w)])
      (fun e he => hflat e (List.mem_cons_of_mem _ he))
      hnd.2
      (by
        intro e he
        simp only [keysOf, List.map_append, List.mem_append, List.map_cons]
        push_neg
        constructor
        · exact fun hh => hdisj e (List.mem_cons_of_mem _ he) (by simpa [keysOf] using hh)
        · simp only [List.map_nil, List.mem_singleton]
          intro hh
          exact hnd.1 (hh ▸ List.mem_map_of_mem (·.1) he))]
    simp

/-- Round-trip core: parsing a generated document with a nonempty flat
metadata map of distinct keys recovers the map and the body exactly. -/
theorem parse_generate (m : List (Str × Str)) (body : Str) (hm : m ≠ [])
    (hflat : ∀ kv ∈ m, FlatKV kv.1 kv.2) (hnd : (keysOf m).Nodup) :
    parseFrontmatter (generateFrontmatter m ++ body) = (m, body) := by
  have hopen : generateFrontmatter m ++ body =
      '-' :: '-' :: '-' :: '\n' :: (genLines m ++ '-' :: '-' :: '-' :: '\n' :: body) := by
    simp [generateFrontmatter]
  rw [hopen, parseFrontmatter]
  simp only [dropFMOpen]
  rw [findDelim_gen m hm hflat body]
  show (parseLines (splitOnChar '\n' (linesJoin m)) [], body) = (m, body)
  rw [splitOnChar_linesJoin m hm hflat]
  rw [parseLines_append m [] hflat hnd (by simp [keysOf])]
  simp

theorem insertJS_ne_nil (m : List (Str × Str)) (k w : Str) :
    insertJS m k w ≠ [] := by
  cases m with
  | nil => simp [insertJS]
  | cons kv rest =>
    obtain ⟨k₀, w₀⟩ := kv
    by_cases h : k₀ = k <;> simp [insertJS, h]

theorem mem_insertJS_self (k w : Str) : ∀ m : List (Str × Str),
    (k, w) ∈ insertJS m k w := by
  intro m
  induction m with
  | nil => simp [insertJS]
  | cons kv rest ih =>
    obtain ⟨k₀, w₀⟩ := kv
    by_cases h : k₀ = k
    · simp [insertJS, h]
    · simp only [insertJS, if_neg h]
      exact List.mem_cons_of_mem _ ih

theorem mem_insertJS_ne (k w q u : Str) (hq : q ≠ k) : ∀ m : List (Str × Str),
    ((q, u) ∈ insertJS m k w ↔ (q, u) ∈ m) := by
  intro m
  induction m with
  | nil =>
    simp [insertJS]
    intro hh
    exact absurd hh hq
  | cons kv rest ih =>
    obtain ⟨k₀, w₀⟩ := kv
    by_cases h : k₀ = k
    · subst h
      rw [insertJS, if_pos rfl]
      simp only [List.mem_cons]
      constructor
      · rintro (hh | hh)
        · exact absurd (congrArg Prod.fst hh) hq
        · exact Or.inr hh
      · rintro (hh | hh)
        · exact absurd (congrArg Prod.fst hh) hq
        · exact Or.inr hh
    · rw [insertJS, if_neg h]
      simp only [List.mem_cons, ih]

theorem keysOf_insertJS_mem (k w : Str) : ∀ m : List (Str × Str),
    k ∈ keysOf m → keysOf (insertJS m k w) = keysOf m := by
  intro m
  induction m with
  | nil => intro h; simp [keysOf] at h
  | cons kv rest ih =>
    obtain ⟨k₀, w₀⟩ := kv
    intro h
    by_cases hk : k₀ = k
    · subst hk
      rw [insertJS, if_pos rfl]
      rfl
    · rw [insertJS, if_neg hk]
      simp only [keysOf, List.map_cons] at h ⊢
      rcases List.mem_cons.mp h with hh | hh
      · exact absurd hh.symm hk
      · rw [show List.map (·.1) (insertJS rest k w) = keysOf (insertJS rest k w) from rfl,
          ih (by simpa [keysOf] using hh)]
        rfl

theorem nodup_keysOf_insertJS (k w : Str) : ∀ m : List (Str × Str),
    (keysOf m).Nodup → (keysOf (insertJS m k w)).Nodup := by
  intro m hnd
  by_cases h : k ∈ keysOf m
  · rwa [keysOf_insertJS_mem k w m h]
  · rw [insertJS_not_mem k w m h]
    simp only [keysOf, List.map_append] at *
    rw [List.nodup_append]
    refine ⟨hnd, by simp, ?_⟩
    intro a ha
    simp only [List.map_cons, List.map_nil, List.mem_singleton]
    intro hh
    exact h (hh ▸ ha)

theorem flat_insertJS (k w : Str) (hkw : FlatKV k w) : ∀ m : List (Str × Str),
    (∀ kv ∈ m, FlatKV kv.1 kv.2) → ∀ kv ∈ insertJS m k w, FlatKV kv.1 kv.2 := by
  intro m
  induction m with
  | nil =>
    intro _ kv hkv
    rw [show insertJS [] k w = [(k, w)] from rfl, List.mem_singleton] at hkv
    rw [hkv]
    exact hkw
  | cons kv₀ rest ih =>
    obtain ⟨k₀, w₀⟩ := kv₀
    intro hall kv hkv
    by_cases h : k₀ = k
    · rw [insertJS, if_pos h, List.mem_cons] at hkv
      rcases hkv with hh | hh
      · rw [hh]; exact hkw
      · exact hall kv (List.mem_cons_of_mem _ hh)
    · rw [insertJS, if_neg h, List.mem_cons] at hkv
      rcases hkv with hh | hh
      · rw [hh]; exact hall (k₀, w₀) (List.mem_cons_self _ _)
      · exact ih (fun e he => hall e (List.mem_cons_of_mem _ he)) kv hh

theorem findDelim_eq_none : ∀ s : Str, hasDelimIn s = false →
    findDelim s = none := by
  intro s
  induction s with
  | nil => intro _; rfl
  | cons c rest ih =>
    intro h
    rw [hasDelimIn, Bool.or_eq_false_iff] at h
    rw [findDelim, if_neg (by simp [h.1])]
    rw [ih h.2]

/-! ## Claim C1: frontmatter round-trip -/

/-- C1, counterexample: the round-trip claim fails at the empty metadata
map.  `generateFrontmatter({})` is `"---\n---\n"`, and the frontmatter
regex requires a newline before the closing `"---"` line, so parsing
`"---\n---\nbody"` finds no frontmatter block and returns the whole text
as the body instead of `"body"`. -/
theorem roundtrip_fails_on_empty_map :
    parseFrontmatter (generateFrontmatter [] ++ "body".data) ≠
      (([] : List (Str × Str)), "body".data) := by decide

/-- C1, amended: for every NONEMPTY metadata map whose keys are nonempty
and colon-free and whose keys and values are newline-free, contain no
colon, carry no leading or trailing whitespace, and whose keys are
distinct, and every body text,
`parseFrontmatter (generateFrontmatter M ++ body) = (M, body)`.  The
empty map (and a map with an empty key) is excluded: there the generated
block is not re-recognized. -/
theorem frontmatter_roundtrip_nonempty (m : List (Str × Str)) (body : Str)
    (hm : m ≠ []) (hflat : ∀ kv ∈ m, FlatKV kv.1 kv.2)
    (hnd : (keysOf m).Nodup) :
    parseFrontmatter (generateFrontmatter m ++ body) = (m, body) :=
  parse_generate m body hm hflat hnd

/-- C1, witness: the round trip on a concrete two-entry map. -/
theorem frontmatter_roundtrip_nonempty_witness :
    parseFrontmatter (generateFrontmatter
        [("project".data, "Test".data), ("priority".data, "High".data)] ++
        "# Plan\nDetails".data) =
      ([("project".data, "Test".data), ("priority".data, "High".data)],
        "# Plan\nDetails".data) :=
  frontmatter_roundtrip_nonempty _ _ (by decide) (by decide) (by decide)

/-! ## Claim C10: unterminated frontmatter -/

/-- C10, confirmed: when the input starts with a `"---"` line but no later
line is exactly `"---"` terminated by a newline (formalized: the text
after the first three characters has no occurrence of `"\n---\n"`) —
including a document whose closing `"---"` is the final line with no
trailing newline — `parseFrontmatter` returns the empty map together with
the entire input unchanged. -/
theorem parseFrontmatter_unterminated (t : Str)
    (hstart : t = "---".data ∨ ∃ r, t = "---\n".data ++ r)
    (hnodelim : hasDelimIn (t.drop 3) = false) :
    parseFrontmatter t = ([], t) := by
  rcases hstart with h | ⟨r, h⟩
  · subst h; decide
  · subst h
    have hdrop : ("---\n".data ++ r).drop 3 = '\n' :: r := rfl
    rw [hdrop, hasDelimIn, Bool.or_eq_false_iff] at hnodelim
    have hfd := findDelim_eq_none r hnodelim.2
    show parseFrontmatter ('-' :: '-' :: '-' :: '\n' :: r) = _
    unfold parseFrontmatter
    show (match findDelim r with
      | none => (([] : List (Str × Str)), '-' :: '-' :: '-' :: '\n' :: r)
      | some (fstr, body) => (parseLines (splitOnChar '\n' fstr) [], body)) = _
    rw [hfd]
    rfl

/-- C10, witness: a document whose closing `"---"` is the final line with
no trailing newline parses to no metadata and an unchanged body. -/
theorem parseFrontmatter_unterminated_witness :
    parseFrontmatter "---\ntitle: x\n---".data =
      ([], "---\ntitle: x\n---".data) :=
  parseFrontmatter_unterminated _
    (Or.inr ⟨"title: x\n---".data, by decide⟩) (by decide)

/-! ## Claim C2: review transition -/

/-- C2, confirmed: when `Inbox/f` holds a document with well-formed flat
frontmatter (it parses to a metadata map of distinct, nonempty, colon-free
keys and flat values) and the call date is a flat value, `markReviewed`
succeeds; afterwards `f` is absent from Inbox, present in Reviewed, the
stored metadata of the Reviewed copy contains `review_date` equal to the
call date, every other metadata pair is exactly preserved, and the body is
unchanged. -/
theorem markReviewed_spec (today f c : Str) (v : Vault)
    (M : List (Str × Str)) (body : Str)
    (hwf : WF v)
    (hget : getFile v (planPath inboxF f) = some c)
    (hparse : parseFrontmatter c = (M, body))
    (hflat : ∀ kv ∈ M, FlatKV kv.1 kv.2)
    (hnd : (keysOf M).Nodup)
    (htoday : ':' ∉ today ∧ '\n' ∉ today ∧ trimStr today = today) :
    (markReviewed today v f).1 = .ok () ∧
    getFile (markReviewed today v f).2 (planPath inboxF f) = none ∧
    ∃ c₁, getFile (markReviewed today v f).2 (planPath reviewedF f) = some c₁ ∧
      (parseFrontmatter c₁).2 = body ∧
      ("review_date".data, today) ∈ (parseFrontmatter c₁).1 ∧
      ∀ k w, k ≠ "review_date".data →
        (((k, w) ∈ (parseFrontmatter c₁).1) ↔ (k, w) ∈ M) := by
  have hrd : FlatKV "review_date".data today :=
    ⟨by decide, by decide, by decide, htoday.1, htoday.2.1, by decide, htoday.2.2⟩
  have hstep : markReviewed today v f =
      (.ok (), deleteFile
        (createOrUpdateFile v (planPath reviewedF f)
          (generateFrontmatter (insertJS M "review_date".data today) ++ body))
        (planPath inboxF f)) := by
    unfold markReviewed
    rw [hget]
    show ((Except.ok () : Except Str Unit), deleteFile
      (createOrUpdateFile v (planPath reviewedF f)
        (generateFrontmatter (insertJS (parseFrontmatter c).1 "review_date".data today) ++
          (parseFrontmatter c).2)) (planPath inboxF f)) = _
    rw [hparse]
  rw [hstep]
  refine ⟨rfl, ?_, ?_⟩
  · exact getFile_delete_self _ _ (WF_createOrUpdate _ _ v hwf)
  · refine ⟨generateFrontmatter (insertJS M "review_date".data today) ++ body, ?_, ?_⟩
    · rw [getFile_delete_ne _ _ (fun hh => inbox_ne_reviewed f f hh.symm),
        getFile_createOrUpdate, if_pos rfl]
    · have hparse₁ :
          parseFrontmatter (generateFrontmatter (insertJS M "review_date".data today) ++ body) =
            (insertJS M "review_date".data today, body) :=
        parse_generate _ body (insertJS_ne_nil M _ today)
          (flat_insertJS _ today hrd M hflat)
          (nodup_keysOf_insertJS _ today M hnd)
      rw [hparse₁]
      refine ⟨rfl, mem_insertJS_self _ today M, ?_⟩
      intro k w hk
      exact mem_insertJS_ne _ today k w hk M

/-- C2, witness: a concrete Inbox document gains `review_date` and moves
to Reviewed with its project entry and body intact. -/
theorem markReviewed_spec_witness :
    (markReviewed "2025-01-09".data
        [(planPath inboxF "p.md".data, "---\nproject: X\n---\nbody".data)]
        "p.md".data).1 = .ok () ∧
    getFile (markReviewed "2025-01-09".data
        [(planPath inboxF "p.md".data, "---\nproject: X\n---\nbody".data)]
        "p.md".data).2 (planPath inboxF "p.md".data) = none ∧
    ∃ c₁, getFile (markReviewed "2025-01-09".data
        [(planPath inboxF "p.md".data, "---\nproject: X\n---\nbody".data)]
        "p.md".data).2 (planPath reviewedF "p.md".data) = some c₁ ∧
      (parseFrontmatter c₁).2 = "body".data ∧
      ("review_date".data, "2025-01-09".data) ∈ (parseFrontmatter c₁).1 ∧
      ∀ k w, k ≠ "review_date".data →
        (((k, w) ∈ (parseFrontmatter c₁).1) ↔
          (k, w) ∈ [("project".data, "X".data)]) :=
  markReviewed_spec "2025-01-09".data "p.md".data
    "---\nproject: X\n---\nbody".data
    [(planPath inboxF "p.md".data, "---\nproject: X\n---\nbody".data)]
    [("project".data, "X".data)] "body".data
    (by decide) (by decide) (by decide) (by decide) (by decide) (by decide)

/-! ## Claim C3: archive transition -/

/-- C3, confirmed: searching Inbox first, then Reviewed: when `f` exists
in Inbox, `archivePlan` copies that content byte-identically to
`Archive/f`, deletes the Inbox copy, and touches no other path; when `f`
exists only in Reviewed the same happens with the Reviewed copy; when `f`
exists in neither, it throws the not-found error and returns the store
unchanged (no writes or deletes).  The three cases are exhaustive, so the
operation fails only in the absent-from-both case. -/
theorem archivePlan_spec (f : Str) (v : Vault) (hwf : WF v) :
    (∀ c, getFile v (planPath inboxF f) = some c →
      (archivePlan v f).1 = .ok () ∧
      getFile (archivePlan v f).2 (planPath archiveF f) = some c ∧
      getFile (archivePlan v f).2 (planPath inboxF f) = none ∧
      ∀ q, q ≠ planPath archiveF f → q ≠ planPath inboxF f →
        getFile (archivePlan v f).2 q = getFile v q) ∧
    (getFile v (planPath inboxF f) = none →
      ∀ c, getFile v (planPath reviewedF f) = some c →
      (archivePlan v f).1 = .ok () ∧
      getFile (archivePlan v f).2 (planPath archiveF f) = some c ∧
      getFile (archivePlan v f).2 (planPath reviewedF f) = none ∧
      ∀ q, q ≠ planPath archiveF f → q ≠ planPath reviewedF f →
        getFile (archivePlan v f).2 q = getFile v q) ∧
    (getFile v (planPath inboxF f) = none →
      getFile v (planPath reviewedF f) = none →
      archivePlan v f = (.error (notFoundMsg f), v)) := by
  refine ⟨?_, ?_, ?_⟩
  · intro c hget
    have hstep : archivePlan v f = (.ok (),
        deleteFile (createOrUpdateFile v (planPath archiveF f) c)
          (planPath inboxF f)) := by
      unfold archivePlan archivePlanF
      simp [archivePlanGo, noFaults, hget]
    rw [hstep]
    refine ⟨rfl, ?_, ?_, ?_⟩
    · rw [getFile_delete_ne _ _ (fun hh => inbox_ne_archive f f hh.symm),
        getFile_createOrUpdate, if_pos rfl]
    · exact getFile_delete_self _ _ (WF_createOrUpdate _ _ v hwf)
    · intro q hqa hqi
      rw [getFile_delete_ne _ _ hqi, getFile_createOrUpdate, if_neg hqa]
  · intro hnone c hget
    have hstep : archivePlan v f = (.ok (),
        deleteFile (createOrUpdateFile v (planPath archiveF f) c)
          (planPath reviewedF f)) := by
      unfold archivePlan archivePlanF
      simp [archivePlanGo, noFaults, hnone, hget]
    rw [hstep]
    refine ⟨rfl, ?_, ?_, ?_⟩
    · rw [getFile_delete_ne _ _ (fun hh => reviewed_ne_archive f f hh.symm),
        getFile_createOrUpdate, if_pos rfl]
    · exact getFile_delete_self _ _ (WF_createOrUpdate _ _ v hwf)
    · intro q hqa hqr
      rw [getFile_delete_ne _ _ hqr, getFile_createOrUpdate, if_neg hqa]
  · intro hni hnr
    unfold archivePlan archivePlanF
    simp [archivePlanGo, noFaults, hni, hnr]

/-- C3, witness: the theorem applied to a concrete store holding the file
in Inbox, instantiating the found-in-Inbox branch. -/
theorem archivePlan_spec_witness :
    (archivePlan [(planPath inboxF "a.md".data, "c1".data)] "a.md".data).1 =
      .ok () ∧
    getFile (archivePlan [(planPath inboxF "a.md".data, "c1".data)]
        "a.md".data).2 (planPath archiveF "a.md".data) = some "c1".data ∧
    getFile (archivePlan [(planPath inboxF "a.md".data, "c1".data)]
        "a.md".data).2 (planPath inboxF "a.md".data) = none := by
  have h := (archivePlan_spec "a.md".data
    [(planPath inboxF "a.md".data, "c1".data)] (by decide)).1
    "c1".data (by decide)
  exact ⟨h.1, h.2.1, h.2.2.1⟩

/-! ## Claim C4: gateway failures during archivePlan -/

/-- C4, bug exhibit: with `p.md` present in Inbox, a failing
`createOrUpdateFile` of the Archive copy is silently caught by the folder
loop and surfaces as the not-found error with the store untouched; a
failing `deleteFile` of the source is likewise caught and surfaces as the
not-found error, with the Archive copy already written — in neither case
is the underlying failure surfaced to the caller. -/
theorem archivePlan_swallows_gateway_failures :
    (archivePlanF ⟨fun _ => true, fun _ => false⟩
        [(planPath inboxF "p.md".data, "content".data)] "p.md".data) =
      (.error (notFoundMsg "p.md".data),
        [(planPath inboxF "p.md".data, "content".data)]) ∧
    (archivePlanF ⟨fun _ => false, fun _ => true⟩
        [(planPath inboxF "p.md".data, "content".data)] "p.md".data) =
      (.error (notFoundMsg "p.md".data),
        [(planPath inboxF "p.md".data, "content".data),
         (planPath archiveF "p.md".data, "content".data)]) :=
  ⟨rfl, rfl⟩

/-! ## Claims C6 and C7: creation target and collision policy -/

theorem countP_zero_of_not_mem (p : Str) : ∀ v : Vault,
    p ∉ listFiles v → v.countP (fun e => decide (e.1 = p)) = 0 := by
  intro v
  induction v with
  | nil => intro _; rfl
  | cons e rest ih =>
    obtain ⟨r, d⟩ := e
    intro h
    rw [listFiles_cons, List.mem_cons] at h
    push_neg at h
    rw [List.countP_cons]
    simp only [decide_eq_true_eq]
    rw [if_neg (fun hh : r = p => h.1 hh.symm)]
    rw [ih h.2]

theorem countP_createOrUpdate (p c : Str) : ∀ v : Vault, WF v →
    (createOrUpdateFile v p c).countP (fun e => decide (e.1 = p)) = 1 := by
  intro v
  induction v with
  | nil => intro _; simp [createOrUpdateFile]
  | cons e rest ih =>
    obtain ⟨r, d⟩ := e
    intro h
    rw [WF_cons] at h
    simp only [createOrUpdateFile]
    by_cases hr : r = p
    · subst hr
      rw [if_pos rfl, List.countP_cons]
      simp only [decide_eq_true_eq, if_pos rfl]
      rw [countP_zero_of_not_mem r rest h.1]
      simp
    · rw [if_neg hr, List.countP_cons]
      simp only [decide_eq_true_eq]
      rw [if_neg hr, ih h.2]

/-- C6, confirmed: `createTechnicalPlan` performs exactly one write, to
`"Technical Plans/Inbox/" ++ {today}_{sanitize(project)}_{sanitize(type)}.md`
(the sanitization replacing every character outside `[A-Za-z0-9]` by `'_'`
independently in the merged project and type), every other path is
untouched, and the returned value equals that path. -/
theorem createTechnicalPlan_spec (today body : Str) (m : PartialMeta) (v : Vault) :
    (createTechnicalPlan today body m v).1 =
      "Technical Plans/Inbox/".data ++ today ++ '_' ::
        sanitize (m.project.getD "Unnamed Project".data) ++ '_' ::
        sanitize (m.type.getD "Design".data) ++ ".md".data ∧
    ∀ q, getFile (createTechnicalPlan today body m v).2 q =
      if q = (createTechnicalPlan today body m v).1 then
        some (generateFrontmatter (mergeMetadata today m) ++ body)
      else getFile v q := by
  constructor
  · show planPath inboxF (generateFilename today _ _) = _
    rw [planPath_eq,
      show (inboxF ++ ['/']) = "Technical Plans/Inbox/".data by decide]
    rfl
  · intro q
    show getFile (createOrUpdateFile v _ _) q = _
    rw [getFile_createOrUpdate]
    rfl

/-- C7, confirmed: two same-day creations whose metadata yield the same
sanitized project and type target the same path; the second call (total,
hence error-free, with no uniqueness suffix) returns the first call's
path, the file at that path afterwards holds exactly the second call's
generated content, and exactly one store entry exists at that path. -/
theorem createTechnicalPlan_overwrite (today b₁ b₂ : Str)
    (m₁ m₂ : PartialMeta) (v : Vault) (hwf : WF v)
    (hp : sanitize (m₁.project.getD "Unnamed Project".data) =
      sanitize (m₂.project.getD "Unnamed Project".data))
    (ht : sanitize (m₁.type.getD "Design".data) =
      sanitize (m₂.type.getD "Design".data)) :
    (createTechnicalPlan today b₂ m₂ (createTechnicalPlan today b₁ m₁ v).2).1 =
      (createTechnicalPlan today b₁ m₁ v).1 ∧
    getFile (createTechnicalPlan today b₂ m₂ (createTechnicalPlan today b₁ m₁ v).2).2
        (createTechnicalPlan today b₁ m₁ v).1 =
      some (generateFrontmatter (mergeMetadata today m₂) ++ b₂) ∧
    ((createTechnicalPlan today b₂ m₂ (createTechnicalPlan today b₁ m₁ v).2).2.countP
      (fun e => decide (e.1 = (createTechnicalPlan today b₁ m₁ v).1))) = 1 := by
  have hpath : (createTechnicalPlan today b₂ m₂ (createTechnicalPlan today b₁ m₁ v).2).1 =
      (createTechnicalPlan today b₁ m₁ v).1 := by
    show planPath inboxF (generateFilename today _ _) =
      planPath inboxF (generateFilename today _ _)
    unfold generateFilename
    rw [hp, ht]
  refine ⟨hpath, ?_, ?_⟩
  · show getFile (createOrUpdateFile (createTechnicalPlan today b₁ m₁ v).2 _ _) _ = _
    rw [getFile_createOrUpdate]
    have hpath₁ : (createTechnicalPlan today b₁ m₁ v).1 =
        planPath inboxF (generateFilename today
          (m₂.project.getD "Unnamed Project".data)
          (m₂.type.getD "Design".data)) := hpath.symm
    rw [if_pos hpath₁]
  · have hwf₁ : WF (createTechnicalPlan today b₁ m₁ v).2 :=
      WF_createOrUpdate _ _ v hwf
    show ((createOrUpdateFile (createTechnicalPlan today b₁ m₁ v).2
      (planPath inboxF (generateFilename today _ _)) _).countP _) = 1
    rw [show (planPath inboxF (generateFilename today
        (m₂.project.getD "Unnamed Project".data) (m₂.type.getD "Design".data))) =
      (createTechnicalPlan today b₁ m₁ v).1 from hpath]
    exact countP_createOrUpdate _ _ _ hwf₁

/-- C7, witness: a concrete second creation with the same project and type
on the same day lands on the first path with the second content. -/
theorem createTechnicalPlan_overwrite_witness :
    (createTechnicalPlan "2025-01-08".data "second".data
        { project := some "Test".data, type := some "Architecture".data }
        (createTechnicalPlan "2025-01-08".data "first".data
          { project := some "Test".data, type := some "Architecture".data }
          []).2).1 =
      (createTechnicalPlan "2025-01-08".data "first".data
        { project := some "Test".data, type := some "Architecture".data }
        []).1 ∧
    getFile (createTechnicalPlan "2025-01-08".data "second".data
        { project := some "Test".data, type := some "Architecture".data }
        (createTechnicalPlan "2025-01-08".data "first".data
          { project := some "Test".data, type := some "Architecture".data }
          []).2).2
        (createTechnicalPlan "2025-01-08".data "first".data
          { project := some "Test".data, type := some "Architecture".data }
          []).1 =
      some (generateFrontmatter (mergeMetadata "2025-01-08".data
        { project := some "Test".data, type := some "Architecture".data }) ++
        "second".data) := by
  have h := createTechnicalPlan_overwrite "2025-01-08".data
    "first".data "second".data
    { project := some "Test".data, type := some "Architecture".data }
    { project := some "Test".data, type := some "Architecture".data }
    [] (by decide) (by decide) (by decide)
  exact ⟨h.1, h.2.1⟩

/-! ## Claim C9: initializeStructure -/

theorem initializeStructure_eq (v : Vault) :
    initializeStructure v =
      (if folderExistsIn (listFiles v) archiveF then
        (if folderExistsIn (listFiles v) reviewedF then
          (if folderExistsIn (listFiles v) inboxF then v
           else createOrUpdateFile v (planPath inboxF ".gitkeep".data) placeholderContent)
         else createOrUpdateFile
          (if folderExistsIn (listFiles v) inboxF then v
           else createOrUpdateFile v (planPath inboxF ".gitkeep".data) placeholderContent)
          (planPath reviewedF ".gitkeep".data) placeholderContent)
       else createOrUpdateFile
        (if folderExistsIn (listFiles v) reviewedF then
          (if folderExistsIn (listFiles v) inboxF then v
           else createOrUpdateFile v (planPath inboxF ".gitkeep".data) placeholderContent)
         else createOrUpdateFile
          (if folderExistsIn (listFiles v) inboxF then v
           else createOrUpdateFile v (planPath inboxF ".gitkeep".data) placeholderContent)
          (planPath reviewedF ".gitkeep".data) placeholderContent)
        (planPath archiveF ".gitkeep".data) placeholderContent) :=
  rfl

theorem strStarts_self_append (rest : Str) : ∀ p : Str,
    strStarts p (p ++ rest) = true := by
  intro p
  induction p with
  | nil => rfl
  | cons c p₁ ih => simp [strStarts, ih]

theorem folderExistsIn_of_mem (all : List Str) (fol x : Str) (hx : x ∈ all)
    (hm : (strStarts (fol ++ ['/']) x || decide (x = fol)) = true) :
    folderExistsIn all fol = true :=
  List.any_eq_true.mpr ⟨x, hx, hm⟩

theorem mem_listFiles_init (v : Vault) (q : Str) (h : q ∈ listFiles v) :
    q ∈ listFiles (initializeStructure v) := by
  rw [initializeStructure_eq]
  by_cases e₁ : folderExistsIn (listFiles v) inboxF <;>
    by_cases e₂ : folderExistsIn (listFiles v) reviewedF <;>
      by_cases e₃ : folderExistsIn (listFiles v) archiveF <;>
        simp [e₁, e₂, e₃, mem_listFiles_createOrUpdate, h]

theorem gitkeep_mem_init (v : Vault) (fol : Str) (hfol : fol ∈ folderList)
    (habs : folderExistsIn (listFiles v) fol = false) :
    planPath fol ".gitkeep".data ∈ listFiles (initializeStructure v) := by
  rw [initializeStructure_eq]
  rcases (by simpa [folderList] using hfol : fol = inboxF ∨ fol = reviewedF ∨ fol = archiveF)
    with h | h | h <;> subst h
  · by_cases e₂ : folderExistsIn (listFiles v) reviewedF <;>
      by_cases e₃ : folderExistsIn (listFiles v) archiveF <;>
        simp [habs, e₂, e₃, mem_listFiles_createOrUpdate]
  · by_cases e₁ : folderExistsIn (listFiles v) inboxF <;>
      by_cases e₃ : folderExistsIn (listFiles v) archiveF <;>
        simp [habs, e₁, e₃, mem_listFiles_createOrUpdate]
  · by_cases e₁ : folderExistsIn (listFiles v) inboxF <;>
      by_cases e₂ : folderExistsIn (listFiles v) reviewedF <;>
        simp [habs, e₁, e₂, mem_listFiles_createOrUpdate]

theorem folderExistsIn_init (v : Vault) (fol : Str) (hfol : fol ∈ folderList) :
    folderExistsIn (listFiles (initializeStructure v)) fol = true := by
  by_cases h : folderExistsIn (listFiles v) fol
  · obtain ⟨x, hx, hm⟩ := List.any_eq_true.mp h
    exact folderExistsIn_of_mem _ fol x (mem_listFiles_init v x hx) hm
  · refine folderExistsIn_of_mem _ fol (planPath fol ".gitkeep".data)
      (gitkeep_mem_init v fol hfol (by simpa using h)) ?_
    rw [planPath_eq, strStarts_self_append]
    rfl

/-- C9, counterexample: the marker file written for an absent folder is
NOT zero-content — it holds the fixed 41-byte placeholder line, refuting
the zero-byte part of the claim. -/
theorem initializeStructure_marker_not_empty :
    getFile (initializeStructure []) (planPath inboxF ".gitkeep".data) =
      some placeholderContent ∧ placeholderContent ≠ [] := by decide

/-- C9, amended: `initializeStructure` is idempotent — when the listing
already contains all three managed folders it performs no writes (returns
the store unchanged), and a repeated call is the identity — and for each
managed folder whose prefix is absent from the listing it writes the
marker file `folder/.gitkeep` with the fixed (non-empty) placeholder
content under that folder. -/
theorem initializeStructure_spec (v : Vault) :
    ((∀ fol ∈ folderList, folderExistsIn (listFiles v) fol = true) →
      initializeStructure v = v) ∧
    (∀ fol ∈ folderList, folderExistsIn (listFiles v) fol = false →
      getFile (initializeStructure v) (planPath fol ".gitkeep".data) =
        some placeholderContent) ∧
    initializeStructure (initializeStructure v) = initializeStructure v := by
  have hall : ∀ w : Vault, (∀ fol ∈ folderList, folderExistsIn (listFiles w) fol = true) →
      initializeStructure w = w := by
    intro w h
    rw [initializeStructure_eq]
    simp only [h inboxF (by simp [folderList]), h reviewedF (by simp [folderList]),
      h archiveF (by simp [folderList]), if_true]
  refine ⟨hall v, ?_, ?_⟩
  · intro fol hfol habs
    rw [initializeStructure_eq]
    have hia := inbox_ne_archive ".gitkeep".data ".gitkeep".data
    have hir := inbox_ne_reviewed ".gitkeep".data ".gitkeep".data
    have hra := reviewed_ne_archive ".gitkeep".data ".gitkeep".data
    have hri : planPath reviewedF ".gitkeep".data ≠ planPath inboxF ".gitkeep".data :=
      fun hh => hir hh.symm
    have hai : planPath archiveF ".gitkeep".data ≠ planPath inboxF ".gitkeep".data :=
      fun hh => hia hh.symm
    have har : planPath archiveF ".gitkeep".data ≠ planPath reviewedF ".gitkeep".data :=
      fun hh => hra hh.symm
    rcases (by simpa [folderList] using hfol :
        fol = inboxF ∨ fol = reviewedF ∨ fol = archiveF) with h | h | h <;> subst h
    · by_cases e₂ : folderExistsIn (listFiles v) reviewedF <;>
        by_cases e₃ : folderExistsIn (listFiles v) archiveF <;>
          simp [habs, e₂, e₃, getFile_createOrUpdate, hia, hir]
    · by_cases e₁ : folderExistsIn (listFiles v) inboxF <;>
        by_cases e₃ : folderExistsIn (listFiles v) archiveF <;>
          simp [habs, e₁, e₃, getFile_createOrUpdate, hra, hri]
    · by_cases e₁ : folderExistsIn (listFiles v) inboxF <;>
        by_cases e₂ : folderExistsIn (listFiles v) reviewedF <;>
          simp [habs, e₁, e₂, getFile_createOrUpdate, hai, har]
  · exact hall (initializeStructure v) (fun fol hfol => folderExistsIn_init v fol hfol)

/-- C9, witness: on the empty store each folder is absent and gains its
placeholder marker, and a second call changes nothing. -/
theorem initializeStructure_spec_witness :
    getFile (initializeStructure []) (planPath inboxF ".gitkeep".data) =
      some placeholderContent ∧
    initializeStructure (initializeStructure []) = initializeStructure [] :=
  ⟨(initializeStructure_spec []).2.1 inboxF (by decide) (by decide),
    (initializeStructure_spec []).2.2⟩

/-! ## Claim C5: Archive terminality -/

theorem archivePlan_preserves_archive (f g : Str) (v : Vault)
    (h : (getFile v (planPath archiveF f)).isSome) :
    (getFile (archivePlan v g).2 (planPath archiveF f)).isSome := by
  unfold archivePlan archivePlanF
  cases hi : getFile v (planPath inboxF g) with
  | some c =>
    simp only [archivePlanGo, noFaults, hi]
    simp only [Bool.false_eq_true, if_false]
    rw [getFile_delete_ne _ _ (fun hh => inbox_ne_archive g f hh.symm)]
    exact isSome_createOrUpdate v _ c _ h
  | none =>
    cases hr : getFile v (planPath reviewedF g) with
    | some c =>
      simp only [archivePlanGo, noFaults, hi, hr]
      simp only [Bool.false_eq_true, if_false]
      rw [getFile_delete_ne _ _ (fun hh => reviewed_ne_archive g f hh.symm)]
      exact isSome_createOrUpdate v _ c _ h
    | none =>
      simpa [archivePlanGo, noFaults, hi, hr] using h

theorem archiveOldGo_preserves_archive (f : Str) (cutoff : Int) :
    ∀ (ps : List FileInfo) (n : Nat) (v : Vault),
    (getFile v (planPath archiveF f)).isSome →
    (getFile (archiveOldGo cutoff ps n v).2 (planPath archiveF f)).isSome := by
  intro ps
  induction ps with
  | nil => intro n v h; simpa [archiveOldGo] using h
  | cons p ps₁ ih =>
    intro n v h
    rw [archiveOldGo]
    by_cases hsa : shouldArchive cutoff p
    · rw [if_pos hsa]
      have hpres := archivePlan_preserves_archive f (lastComp p.path) v h
      cases harch : archivePlan v (lastComp p.path) with
      | mk res v₁ =>
        rw [harch] at hpres
        cases res with
        | ok u => simpa using ih (n + 1) v₁ (by simpa using hpres)
        | error e => simpa using hpres
    · rw [if_neg hsa]
      exact ih n v h

/-- C5, counterexample: `movePlan` does leave Archive — moving a plan that
exists only under Archive to Inbox deletes the Archive copy. -/
theorem movePlan_leaves_archive_cex :
    (getFile [(planPath archiveF "a.md".data, "c".data)]
      (planPath archiveF "a.md".data)).isSome ∧
    getFile (movePlan [(planPath archiveF "a.md".data, "c".data)]
        "a.md".data Folder.inbox).2
      (planPath archiveF "a.md".data) = none := by decide

/-- C5, amended: Archive is terminal for every operation of the subsystem
EXCEPT `movePlan` (which searches Archive too and moves the found copy
out): a document present under `Archive/f` before a call to
`createTechnicalPlan`, `markReviewed`, `archivePlan`,
`archiveOldReviewed`, or `initializeStructure` is still present under
`Archive/f` after it.  (`listTechnicalPlans` and `getPlanMetadata` are
embedded as pure reads `Vault → result`; they issue no writes and cannot
change the store.) -/
theorem archive_terminal (v : Vault) (f : Str)
    (hpres : (getFile v (planPath archiveF f)).isSome) :
    (∀ today body m, (getFile (createTechnicalPlan today body m v).2
      (planPath archiveF f)).isSome) ∧
    (∀ today g, (getFile (markReviewed today v g).2
      (planPath archiveF f)).isSome) ∧
    (∀ g, (getFile (archivePlan v g).2 (planPath archiveF f)).isSome) ∧
    (∀ now n, (getFile (archiveOldReviewed now n v).2
      (planPath archiveF f)).isSome) ∧
    (getFile (initializeStructure v) (planPath archiveF f)).isSome := by
  refine ⟨?_, ?_, ?_, ?_, ?_⟩
  · intro today body m
    exact isSome_createOrUpdate v _ _ _ hpres
  · intro today g
    have hres : (markReviewed today v g).2 = v ∨
        ∃ upd, (markReviewed today v g).2 =
          deleteFile (createOrUpdateFile v (planPath reviewedF g) upd)
            (planPath inboxF g) := by
      unfold markReviewed
      cases hi : getFile v (planPath inboxF g) with
      | none => exact Or.inl rfl
      | some c => exact Or.inr ⟨_, rfl⟩
    rcases hres with h | ⟨upd, h⟩
    · rw [h]; exact hpres
    · rw [h, getFile_delete_ne _ _ (fun hh => inbox_ne_archive g f hh.symm)]
      exact isSome_createOrUpdate v _ _ _ hpres
  · intro g
    exact archivePlan_preserves_archive f g v hpres
  · intro now n
    unfold archiveOldReviewed
    exact archiveOldGo_preserves_archive f _ _ 0 v hpres
  · exact getFile_isSome_of_mem _ _
      (mem_listFiles_init v _ (mem_of_getFile_isSome v _ hpres))

/-- C5, witness: with a concrete Archive-resident plan, archiving another
filename and re-initializing both keep the plan in Archive. -/
theorem archive_terminal_witness :
    (getFile (archivePlan [(planPath archiveF "a.md".data, "c".data)]
        "b.md".data).2 (planPath archiveF "a.md".data)).isSome ∧
    (getFile (initializeStructure [(planPath archiveF "a.md".data, "c".data)])
      (planPath archiveF "a.md".data)).isSome := by
  have h := archive_terminal [(planPath archiveF "a.md".data, "c".data)]
    "a.md".data (by decide)
  exact ⟨h.2.2.1 "b.md".data, h.2.2.2.2⟩

/-! ## Claim C8: support lemmas -/

theorem dropLead_append (r : Str) : ∀ p : Str, dropLead p (p ++ r) = some r := by
  intro p
  induction p with
  | nil => rfl
  | cons c p₁ ih => simp [dropLead, ih]

theorem dropLead_some (r : Str) : ∀ (p s : Str), dropLead p s = some r →
    s = p ++ r := by
  intro p
  induction p with
  | nil =>
    intro s h
    simp [dropLead] at h
    simp [h]
  | cons c p₁ ih =>
    intro s h
    cases s with
    | nil => simp [dropLead] at h
    | cons d s₁ =>
      simp only [dropLead] at h
      by_cases hc : c = d
      · rw [if_pos hc] at h
        rw [List.cons_append, ← ih s₁ h, hc]
      · rw [if_neg hc] at h
        cases h

theorem mem_listDirNames (v : Vault) (fol name : Str) :
    name ∈ listDirNames v fol ↔
      planPath fol name ∈ listFiles v ∧ ('/' : Char) ∉ name := by
  unfold listDirNames
  rw [List.mem_filterMap]
  constructor
  · rintro ⟨q, hq, hmatch⟩
    cases hd : dropLead (fol ++ ['/']) q with
    | none => rw [hd] at hmatch; cases hmatch
    | some r =>
      rw [hd] at hmatch
      by_cases hs : ('/' : Char) ∈ r
      · simp [hs] at hmatch
      · simp only [if_neg hs, Option.some.injEq] at hmatch
        have hq₁ : q = (fol ++ ['/']) ++ name := by
          rw [← hmatch]
          exact dropLead_some r _ q hd
        rw [planPath_eq]
        exact ⟨hq₁ ▸ hq, hmatch ▸ hs⟩
  · rintro ⟨hmem, hs⟩
    refine ⟨planPath fol name, hmem, ?_⟩
    rw [show planPath fol name = (fol ++ ['/']) ++ name from planPath_eq _ _,
      dropLead_append]
    simp [hs]

theorem nodup_listDirNames (v : Vault) (fol : Str) (hwf : WF v) :
    (listDirNames v fol).Nodup := by
  unfold listDirNames
  refine List.Nodup.filterMap ?_ hwf
  intro a a' b hb hb'
  have ha : dropLead (fol ++ ['/']) a = some b := by
    cases hd : dropLead (fol ++ ['/']) a with
    | none => rw [hd] at hb; cases hb
    | some r =>
      rw [hd] at hb
      by_cases hs : ('/' : Char) ∈ r
      · simp [hs] at hb
      · simp only [if_neg hs, Option.mem_def, Option.some.injEq] at hb
        rw [hb]
  have ha' : dropLead (fol ++ ['/']) a' = some b := by
    cases hd : dropLead (fol ++ ['/']) a' with
    | none => rw [hd] at hb'; cases hb'
    | some r =>
      rw [hd] at hb'
      by_cases hs : ('/' : Char) ∈ r
      · simp [hs] at hb'
      · simp only [if_neg hs, Option.mem_def, Option.some.injEq] at hb'
        rw [hb']
  rw [dropLead_some b _ a ha, dropLead_some b _ a' ha']

theorem splitOnChar_ne_nil (sep : Char) : ∀ s : Str, splitOnChar sep s ≠ [] := by
  intro s
  cases s with
  | nil => simp [splitOnChar]
  | cons c rest =>
    by_cases h : c = sep
    · simp [splitOnChar, h]
    · simp only [splitOnChar, if_neg h]
      cases hs : splitOnChar sep rest with
      | nil => simp
      | cons l ls => simp

theorem splitOnChar_two_of_mem (sep : Char) : ∀ s : Str, sep ∈ s →
    2 ≤ (splitOnChar sep s).length := by
  intro s
  induction s with
  | nil => intro h; cases h
  | cons c rest ih =>
    intro h
    by_cases hc : c = sep
    · rw [splitOnChar, if_pos hc, List.length_cons]
      have := splitOnChar_ne_nil sep rest
      have : 1 ≤ (splitOnChar sep rest).length :=
        Nat.one_le_iff_ne_zero.mpr (fun hz => this (List.eq_nil_of_length_eq_zero hz))
      omega
    · have hmem : sep ∈ rest := by
        rcases List.mem_cons.mp h with hh | hh
        · exact absurd hh.symm hc
        · exact hh
      rw [splitOnChar, if_neg hc]
      cases hs : splitOnChar sep rest with
      | nil => exact absurd hs (splitOnChar_ne_nil sep rest)
      | cons l ls =>
        have := ih hmem
        rw [hs] at this
        simpa using this

theorem getLast?_cons_of_ne_nil {α : Type} (a : α) : ∀ xs : List α, xs ≠ [] →
    (a :: xs).getLast? = xs.getLast? := by
  intro xs
  cases xs with
  | nil => intro h; exact absurd rfl h
  | cons b ys => intro _; rfl

theorem lastComp_append (name : Str) (hs : ('/' : Char) ∉ name) :
    ∀ s : Str, lastComp (s ++ '/' :: name) = name := by
  intro s
  induction s with
  | nil =>
    unfold lastComp
    rw [List.nil_append, splitOnChar, if_pos rfl, splitOnChar_free '/' name hs]
    rfl
  | cons c s₁ ih =>
    unfold lastComp at ih ⊢
    rw [List.cons_append]
    by_cases hc : c = '/'
    · rw [splitOnChar, if_pos hc,
        getLast?_cons_of_ne_nil _ _ (splitOnChar_ne_nil '/' _), ih]
    · rw [splitOnChar, if_neg hc]
      cases hsp : splitOnChar '/' (s₁ ++ '/' :: name) with
      | nil => exact absurd hsp (splitOnChar_ne_nil '/' _)
      | cons l ls =>
        have hlen := splitOnChar_two_of_mem '/' (s₁ ++ '/' :: name)
          (by simp)
        rw [hsp] at hlen
        have hls : ls ≠ [] := by
          intro hz
          rw [hz] at hlen
          simp at hlen
        rw [getLast?_cons_of_ne_nil _ _ hls]
        rw [hsp] at ih
        rwa [getLast?_cons_of_ne_nil _ _ hls] at ih

theorem lastComp_planPath (fol name : Str) (hs : ('/' : Char) ∉ name) :
    lastComp (planPath fol name) = name :=
  lastComp_append name hs fol

theorem path_mkInfo (v : Vault) (fol name : Str) :
    (mkInfo v fol name).path = planPath fol name := by
  unfold mkInfo
  cases getFile v (planPath fol name) <;> rfl

theorem mkInfo_of_getFile (v : Vault) (fol name c : Str)
    (h : getFile v (planPath fol name) = some c) :
    mkInfo v fol name = ⟨planPath fol name, some (parseFrontmatter c).1⟩ := by
  unfold mkInfo
  rw [h]

theorem map_lastComp_mkInfo (v : Vault) (fol : Str) : ∀ ns : List Str,
    (∀ nm ∈ ns, ('/' : Char) ∉ nm) →
    (ns.map (mkInfo v fol)).map (fun p => lastComp p.path) = ns := by
  intro ns
  induction ns with
  | nil => intro _; rfl
  | cons nm ns₁ ih =>
    intro h
    simp only [List.map_cons]
    rw [path_mkInfo,
      lastComp_planPath fol nm (h nm (List.mem_cons_self _ _)),
      ih (fun e he => h e (List.mem_cons_of_mem _ he))]

theorem archivePlan_eq_reviewed (v : Vault) (g c : Str)
    (hni : getFile v (planPath inboxF g) = none)
    (hgr : getFile v (planPath reviewedF g) = some c) :
    archivePlan v g = (.ok (),
      deleteFile (createOrUpdateFile v (planPath archiveF g) c)
        (planPath reviewedF g)) := by
  unfold archivePlan archivePlanF
  simp [archivePlanGo, noFaults, hni, hgr]

/-- Invariant of the archiving loop: starting from a store where every
listed plan still sits in Reviewed and none shadows it in Inbox, with
distinct filenames, the loop succeeds, counts exactly the plans passing
the cutoff test, moves each of those from Reviewed to Archive with its
bytes intact, and touches no other path. -/
theorem archiveOldGo_spec (cutoff : Int) :
    ∀ (ps : List FileInfo) (n : Nat) (w : Vault),
    WF w →
    (ps.map (fun p => lastComp p.path)).Nodup →
    (∀ p ∈ ps, (getFile w (planPath reviewedF (lastComp p.path))).isSome) →
    (∀ p ∈ ps, getFile w (planPath inboxF (lastComp p.path)) = none) →
    (archiveOldGo cutoff ps n w).1 =
      .ok (n + (ps.filter (shouldArchive cutoff)).length) ∧
    WF (archiveOldGo cutoff ps n w).2 ∧
    (∀ q, (∀ p ∈ ps, shouldArchive cutoff p = true →
        q ≠ planPath archiveF (lastComp p.path) ∧
        q ≠ planPath reviewedF (lastComp p.path)) →
      getFile (archiveOldGo cutoff ps n w).2 q = getFile w q) ∧
    (∀ p ∈ ps, shouldArchive cutoff p = true →
      getFile (archiveOldGo cutoff ps n w).2
          (planPath archiveF (lastComp p.path)) =
        getFile w (planPath reviewedF (lastComp p.path)) ∧
      getFile (archiveOldGo cutoff ps n w).2
        (planPath reviewedF (lastComp p.path)) = none) := by
  intro ps
  induction ps with
  | nil =>
    intro n w hwf _ _ _
    refine ⟨by simp [archiveOldGo], by simpa [archiveOldGo] using hwf, ?_, ?_⟩
    · intro q _
      simp [archiveOldGo]
    · intro p hp
      cases hp
  | cons p ps₁ ih =>
    intro n w hwf hnd hrev hinb
    have hnd₁ : (ps₁.map (fun e => lastComp e.path)).Nodup := by
      rw [List.map_cons, List.nodup_cons] at hnd
      exact hnd.2
    have hnotin : lastComp p.path ∉ ps₁.map (fun e => lastComp e.path) := by
      rw [List.map_cons, List.nodup_cons] at hnd
      exact hnd.1
    by_cases hsa : shouldArchive cutoff p = true
    · obtain ⟨c, hc⟩ := Option.isSome_iff_exists.mp (hrev p (List.mem_cons_self _ _))
      have hni : getFile w (planPath inboxF (lastComp p.path)) = none :=
        hinb p (List.mem_cons_self _ _)
      set w₁ := deleteFile
        (createOrUpdateFile w (planPath archiveF (lastComp p.path)) c)
        (planPath reviewedF (lastComp p.path)) with hw₁
      have hgo : archiveOldGo cutoff (p :: ps₁) n w =
          archiveOldGo cutoff ps₁ (n + 1) w₁ := by
        rw [archiveOldGo, if_pos hsa, archivePlan_eq_reviewed w _ c hni hc]
      have hwf₁ : WF w₁ := WF_delete _ _ (WF_createOrUpdate _ _ w hwf)
      have hname₁ : ∀ e ∈ ps₁, lastComp e.path ≠ lastComp p.path := by
        intro e he hh
        exact hnotin (hh ▸ List.mem_map_of_mem (fun e => lastComp e.path) he)
      have hrev₁ : ∀ e ∈ ps₁,
          getFile w₁ (planPath reviewedF (lastComp e.path)) =
            getFile w (planPath reviewedF (lastComp e.path)) := by
        intro e he
        rw [hw₁,
          getFile_delete_ne _ _ (fun hh => hname₁ e he (planPath_inj _ _ _ hh)),
          getFile_createOrUpdate,
          if_neg (reviewed_ne_archive (lastComp e.path) (lastComp p.path))]
      have hinb₁ : ∀ e ∈ ps₁,
          getFile w₁ (planPath inboxF (lastComp e.path)) = none := by
        intro e he
        rw [hw₁, getFile_delete_ne _ _ (inbox_ne_reviewed _ _),
          getFile_createOrUpdate, if_neg (inbox_ne_archive _ _)]
        exact hinb e (List.mem_cons_of_mem _ he)
      obtain ⟨hcount, hwf₂, hframe, hdone⟩ := ih (n + 1) w₁ hwf₁ hnd₁
        (fun e he => by
          rw [hrev₁ e he]
          exact hrev e (List.mem_cons_of_mem _ he))
        hinb₁
      refine ⟨?_, ?_, ?_, ?_⟩
      · rw [hgo, hcount, List.filter_cons_of_pos hsa, List.length_cons]
        congr 1
        omega
      · rw [hgo]
        exact hwf₂
      · intro q hq
        rw [hgo, hframe q (fun e he => hq e (List.mem_cons_of_mem _ he))]
        obtain ⟨hqa, hqr⟩ := hq p (List.mem_cons_self _ _) hsa
        rw [hw₁, getFile_delete_ne _ _ hqr, getFile_createOrUpdate, if_neg hqa]
      · intro e he hsae
        rcases List.mem_cons.mp he with rfl | he₁
        · constructor
          · rw [hgo, hframe (planPath archiveF (lastComp e.path))
              (fun e₁ he₁ hsae₁ =>
                ⟨fun hh => hname₁ e₁ he₁ (planPath_inj _ _ _ hh).symm,
                 fun hh => reviewed_ne_archive (lastComp e₁.path) (lastComp e.path) hh.symm⟩)]
            rw [hw₁, getFile_delete_ne _ _
                (fun hh => reviewed_ne_archive (lastComp e.path) (lastComp e.path) hh.symm),
              getFile_createOrUpdate, if_pos rfl, hc]
          · rw [hgo, hframe (planPath reviewedF (lastComp e.path))
              (fun e₁ he₁ hsae₁ =>
                ⟨reviewed_ne_archive (lastComp e.path) (lastComp e₁.path),
                 fun hh => hname₁ e₁ he₁ (planPath_inj _ _ _ hh).symm⟩)]
            rw [hw₁]
            exact getFile_delete_self _ _ (WF_createOrUpdate _ _ w hwf)
        · obtain ⟨h₁, h₂⟩ := hdone e he₁ hsae
          constructor
          · rw [hgo, h₁, hrev₁ e he₁]
          · rw [hgo]
            exact h₂
    · have hsa₀ : shouldArchive cutoff p = false := by
        cases h : shouldArchive cutoff p
        · rfl
        · exact absurd h hsa
      have hgo : archiveOldGo cutoff (p :: ps₁) n w =
          archiveOldGo cutoff ps₁ n w := by
        rw [archiveOldGo, if_neg hsa]
      obtain ⟨hcount, hwf₂, hframe, hdone⟩ := ih n w hwf hnd₁
        (fun e he => hrev e (List.mem_cons_of_mem _ he))
        (fun e he => hinb e (List.mem_cons_of_mem _ he))
      refine ⟨?_, ?_, ?_, ?_⟩
      · rw [hgo, hcount, List.filter_cons_of_neg (by simp [hsa₀])]
      · rw [hgo]
        exact hwf₂
      · intro q hq
        rw [hgo]
        exact hframe q (fun e he => hq e (List.mem_cons_of_mem _ he))
      · intro e he hsae
        rcases List.mem_cons.mp he with rfl | he₁
        · exact absurd hsae hsa
        · rw [hgo]
          exact hdone e he₁ hsae

theorem mem_listPlansInFolder (v : Vault) (fol : Str) (p : FileInfo) :
    p ∈ listPlansInFolder v fol ↔ ∃ nm, nm ∈ listDirNames v fol ∧
      endsWithMd nm = true ∧ p = mkInfo v fol nm := by
  unfold listPlansInFolder
  rw [List.mem_map]
  constructor
  · rintro ⟨nm, hnm, rfl⟩
    have h := List.mem_filter.mp hnm
    exact ⟨nm, h.1, h.2, rfl⟩
  · rintro ⟨nm, h₁, h₂, rfl⟩
    exact ⟨nm, List.mem_filter.mpr ⟨h₁, h₂⟩, rfl⟩

theorem shouldArchive_eq_some (cutoff : Int) (path : Str)
    (md : List (Str × Str)) (s : Str) (tval : Int)
    (hs : alookup md "review_date".data = some s)
    (hp : parseISODate s = some tval) :
    shouldArchive cutoff ⟨path, some md⟩ = decide (tval < cutoff) := by
  simp [shouldArchive, hs, hp]

theorem shouldArchive_no_review_date (cutoff : Int) (path : Str)
    (md : List (Str × Str)) (hs : alookup md "review_date".data = none) :
    shouldArchive cutoff ⟨path, some md⟩ = false := by
  simp [shouldArchive, hs]

theorem shouldArchive_bad_date (cutoff : Int) (path : Str)
    (md : List (Str × Str)) (s : Str)
    (hs : alookup md "review_date".data = some s)
    (hp : parseISODate s = none) :
    shouldArchive cutoff ⟨path, some md⟩ = false := by
  simp [shouldArchive, hs, hp]

/-! ## Claim C8: age-based archiving -/

/-- C8, confirmed: with the current instant `msPerDay * today + t`
(`0 ≤ t < msPerDay`, so the call date is day `today`), a well-formed store,
and no Reviewed filename shadowed by an Inbox copy:
`archiveOldReviewed(N)` (1) succeeds and returns exactly the number of
listed Reviewed plans passing the age test — the plans it archives; (2)
archives every Reviewed `.md` plan whose `review_date` parses to day
`today − (N+1)` (its bytes move to Archive, the Reviewed copy disappears);
(3) does not archive a plan whose `review_date` parses to day
`today − (N−1)` (it stays in Reviewed, Archive unchanged at its name);
(4) never archives a plan whose `review_date` is missing or unparseable,
for this arbitrary `N`. -/
theorem archiveOldReviewed_spec (today t : Int) (N : Nat) (v : Vault)
    (hwf : WF v) (ht₀ : 0 ≤ t) (ht₁ : t < msPerDay)
    (hnoinbox : ∀ name ∈ listDirNames v reviewedF,
      getFile v (planPath inboxF name) = none) :
    ((archiveOldReviewed (msPerDay * today + t) N v).1 =
      .ok ((listTechnicalPlans v (some .reviewed)).filter
        (shouldArchive (msPerDay * today + t - N * msPerDay))).length) ∧
    (∀ name c, ('/' : Char) ∉ name → endsWithMd name = true →
      getFile v (planPath reviewedF name) = some c →
      ∀ s, alookup (parseFrontmatter c).1 "review_date".data = some s →
      parseISODate s = some (msPerDay * (today - ((N : Int) + 1))) →
      getFile (archiveOldReviewed (msPerDay * today + t) N v).2
          (planPath archiveF name) = some c ∧
      getFile (archiveOldReviewed (msPerDay * today + t) N v).2
        (planPath reviewedF name) = none) ∧
    (∀ name c, ('/' : Char) ∉ name →
      getFile v (planPath reviewedF name) = some c →
      ∀ s, alookup (parseFrontmatter c).1 "review_date".data = some s →
      parseISODate s = some (msPerDay * (today - ((N : Int) - 1))) →
      getFile (archiveOldReviewed (msPerDay * today + t) N v).2
          (planPath reviewedF name) = some c ∧
      getFile (archiveOldReviewed (msPerDay * today + t) N v).2
          (planPath archiveF name) =
        getFile v (planPath archiveF name)) ∧
    (∀ name c, ('/' : Char) ∉ name →
      getFile v (planPath reviewedF name) = some c →
      (alookup (parseFrontmatter c).1 "review_date".data = none ∨
        (∀ s, alookup (parseFrontmatter c).1 "review_date".data = some s →
          parseISODate s = none)) →
      getFile (archiveOldReviewed (msPerDay * today + t) N v).2
          (planPath reviewedF name) = some c ∧
      getFile (archiveOldReviewed (msPerDay * today + t) N v).2
          (planPath archiveF name) =
        getFile v (planPath archiveF name)) := by
  have ht₁' : t < (86400000 : Int) := ht₁
  have hgo : archiveOldReviewed (msPerDay * today + t) N v =
      archiveOldGo (msPerDay * today + t - N * msPerDay)
        (listTechnicalPlans v (some .reviewed)) 0 v := rfl
  have hnoslash : ∀ nm ∈ (listDirNames v reviewedF).filter endsWithMd,
      ('/' : Char) ∉ nm := fun nm h =>
    ((mem_listDirNames v reviewedF nm).mp (List.mem_filter.mp h).1).2
  have hmapnames : (listTechnicalPlans v (some .reviewed)).map
      (fun p => lastComp p.path) = (listDirNames v reviewedF).filter endsWithMd :=
    map_lastComp_mkInfo v reviewedF _ hnoslash
  have hndnames : ((listTechnicalPlans v (some .reviewed)).map
      (fun p => lastComp p.path)).Nodup := by
    rw [hmapnames]
    exact (nodup_listDirNames v reviewedF hwf).filter _
  have hlastmk : ∀ nm, ('/' : Char) ∉ nm →
      lastComp (mkInfo v reviewedF nm).path = nm := by
    intro nm hs
    rw [path_mkInfo, lastComp_planPath _ _ hs]
  have hrev : ∀ p ∈ listTechnicalPlans v (some .reviewed),
      (getFile v (planPath reviewedF (lastComp p.path))).isSome := by
    intro p hp
    obtain ⟨nm, hnm, hmd, rfl⟩ := (mem_listPlansInFolder v reviewedF p).mp hp
    rw [hlastmk nm ((mem_listDirNames v reviewedF nm).mp hnm).2]
    exact getFile_isSome_of_mem _ v ((mem_listDirNames v reviewedF nm).mp hnm).1
  have hinb : ∀ p ∈ listTechnicalPlans v (some .reviewed),
      getFile v (planPath inboxF (lastComp p.path)) = none := by
    intro p hp
    obtain ⟨nm, hnm, hmd, rfl⟩ := (mem_listPlansInFolder v reviewedF p).mp hp
    rw [hlastmk nm ((mem_listDirNames v reviewedF nm).mp hnm).2]
    exact hnoinbox nm hnm
  obtain ⟨hcount, hwfF, hframe, hdone⟩ :=
    archiveOldGo_spec (msPerDay * today + t - N * msPerDay)
      (listTechnicalPlans v (some .reviewed)) 0 v hwf hndnames hrev hinb
  have huniq : ∀ p ∈ listTechnicalPlans v (some .reviewed), ∀ name,
      lastComp p.path = name → p = mkInfo v reviewedF name := by
    intro p hp name hlast
    obtain ⟨nm, hnm, hmd, rfl⟩ := (mem_listPlansInFolder v reviewedF p).mp hp
    rw [hlastmk nm ((mem_listDirNames v reviewedF nm).mp hnm).2] at hlast
    rw [hlast]
  have hnotarch : ∀ name c, ('/' : Char) ∉ name →
      getFile v (planPath reviewedF name) = some c →
      shouldArchive (msPerDay * today + t - N * msPerDay)
        (mkInfo v reviewedF name) = false →
      getFile (archiveOldGo (msPerDay * today + t - N * msPerDay)
          (listTechnicalPlans v (some .reviewed)) 0 v).2
          (planPath reviewedF name) = some c ∧
      getFile (archiveOldGo (msPerDay * today + t - N * msPerDay)
          (listTechnicalPlans v (some .reviewed)) 0 v).2
          (planPath archiveF name) =
        getFile v (planPath archiveF name) := by
    intro name c hs hc hsa
    constructor
    · rw [hframe (planPath reviewedF name) ?_]
      · exact hc
      · intro e he hsae
        refine ⟨reviewed_ne_archive name (lastComp e.path), ?_⟩
        intro hh
        have he₁ : e = mkInfo v reviewedF name :=
          huniq e he name (planPath_inj _ _ _ hh).symm
        rw [he₁, hsa] at hsae
        cases hsae
    · rw [hframe (planPath archiveF name) ?_]
      intro e he hsae
      constructor
      · intro hh
        have he₁ : e = mkInfo v reviewedF name :=
          huniq e he name (planPath_inj _ _ _ hh).symm
        rw [he₁, hsa] at hsae
        cases hsae
      · exact fun hh => reviewed_ne_archive (lastComp e.path) name hh.symm
  refine ⟨?_, ?_, ?_, ?_⟩
  · rw [hgo, hcount]
    simp
  · intro name c hs hmd hc s hsrd hsdate
    have hp : mkInfo v reviewedF name ∈ listTechnicalPlans v (some .reviewed) :=
      (mem_listPlansInFolder v reviewedF _).mpr
        ⟨name, (mem_listDirNames v reviewedF name).mpr
          ⟨mem_of_getFile_isSome v _ (by simp [hc]), hs⟩, hmd, rfl⟩
    have hmk := mkInfo_of_getFile v reviewedF name c hc
    have hsa : shouldArchive (msPerDay * today + t - N * msPerDay)
        (mkInfo v reviewedF name) = true := by
      rw [hmk, shouldArchive_eq_some _ _ _ s _ hsrd hsdate]
      simp only [decide_eq_true_eq]
      simp only [msPerDay]
      omega
    have h := hdone (mkInfo v reviewedF name) hp hsa
    rw [hlastmk name hs] at h
    rw [hgo]
    exact ⟨h.1.trans hc, h.2⟩
  · intro name c hs hc s hsrd hsdate
    have hmk := mkInfo_of_getFile v reviewedF name c hc
    have hsa : shouldArchive (msPerDay * today + t - N * msPerDay)
        (mkInfo v reviewedF name) = false := by
      rw [hmk, shouldArchive_eq_some _ _ _ s _ hsrd hsdate]
      simp only [decide_eq_false_iff_not]
      simp only [msPerDay]
      omega
    rw [hgo]
    exact hnotarch name c hs hc hsa
  · intro name c hs hc hbad
    have hmk := mkInfo_of_getFile v reviewedF name c hc
    have hsa : shouldArchive (msPerDay * today + t - N * msPerDay)
        (mkInfo v reviewedF name) = false := by
      rw [hmk]
      rcases hbad with hnone | hbad
      · exact shouldArchive_no_review_date _ _ _ hnone
      · cases hrd : alookup (parseFrontmatter c).1 "review_date".data with
        | none => exact shouldArchive_no_review_date _ _ _ hrd
        | some s => exact shouldArchive_bad_date _ _ _ s hrd (hbad s hrd)
    rw [hgo]
    exact hnotarch name c hs hc hsa

/-- C8, witness: on 2025-01-09 (day 20097) with `N = 7`, a Reviewed plan
reviewed 2025-01-01 (8 days old) is archived, one reviewed 2025-01-03
(6 days old) is not, one with no `review_date` is not, and the returned
count is 1. -/
theorem archiveOldReviewed_spec_witness :
    (archiveOldReviewed (msPerDay * 20097 + 0) 7
      [(planPath reviewedF "a.md".data, "---\nreview_date: 2025-01-01\n---\nA".data),
       (planPath reviewedF "b.md".data, "---\nreview_date: 2025-01-03\n---\nB".data),
       (planPath reviewedF "c.md".data, "---\nproject: X\n---\nC".data)]).1 =
      .ok 1 ∧
    getFile (archiveOldReviewed (msPerDay * 20097 + 0) 7
      [(planPath reviewedF "a.md".data, "---\nreview_date: 2025-01-01\n---\nA".data),
       (planPath reviewedF "b.md".data, "---\nreview_date: 2025-01-03\n---\nB".data),
       (planPath reviewedF "c.md".data, "---\nproject: X\n---\nC".data)]).2
      (planPath archiveF "a.md".data) =
        some "---\nreview_date: 2025-01-01\n---\nA".data ∧
    getFile (archiveOldReviewed (msPerDay * 20097 + 0) 7
      [(planPath reviewedF "a.md".data, "---\nreview_date: 2025-01-01\n---\nA".data),
       (planPath reviewedF "b.md".data, "---\nreview_date: 2025-01-03\n---\nB".data),
       (planPath reviewedF "c.md".data, "---\nproject: X\n---\nC".data)]).2
      (planPath reviewedF "b.md".data) =
        some "---\nreview_date: 2025-01-03\n---\nB".data ∧
    getFile (archiveOldReviewed (msPerDay * 20097 + 0) 7
      [(planPath reviewedF "a.md".data, "---\nreview_date: 2025-01-01\n---\nA".data),
       (planPath reviewedF "b.md".data, "---\nreview_date: 2025-01-03\n---\nB".data),
       (planPath reviewedF "c.md".data, "---\nproject: X\n---\nC".data)]).2
      (planPath reviewedF "c.md".data) =
        some "---\nproject: X\n---\nC".data := by
  have h := archiveOldReviewed_spec 20097 0 7
    [(planPath reviewedF "a.md".data, "---\nreview_date: 2025-01-01\n---\nA".data),
     (planPath reviewedF "b.md".data, "---\nreview_date: 2025-01-03\n---\nB".data),
     (planPath reviewedF "c.md".data, "---\nproject: X\n---\nC".data)]
    (by decide) (by decide) (by decide) (by decide)
  refine ⟨h.1.trans (congrArg Except.ok (by decide)), ?_, ?_, ?_⟩
  · exact (h.2.1 "a.md".data "---\nreview_date: 2025-01-01\n---\nA".data
      (by decide) (by decide) (by decide) "2025-01-01".data
      (by decide) (by decide)).1
  · exact (h.2.2.1 "b.md".data "---\nreview_date: 2025-01-03\n---\nB".data
      (by decide) (by decide) "2025-01-03".data (by decide) (by decide)).1
  · exact (h.2.2.2 "c.md".data "---\nproject: X\n---\nC".data
      (by decide) (by decide) (Or.inl (by decide))).1

end ObsidianMCP
